import Mathlib

/-!
Shallow embedding of `src/boc/BitBuilder.ts` (class `BitBuilder`) and
verification of the specification's claims about it.

Modelling conventions:
* A JavaScript `Buffer` of `n` bytes is a `List Nat` of length `n`; byte
  assignment coerces through `ToUint8`, i.e. `% 256`, and an out-of-bounds
  indexed assignment on a `Buffer` (a `Uint8Array`) is silently discarded,
  which is exactly the behaviour of `List.set` at an out-of-range index.
* A JavaScript value of type `bigint | number` is a `JSVal`: the code
  converts it with `BigInt(value)` (here `JSVal.toInt`) for arithmetic, but
  some checks use strict equality `value === n` against bigint literals,
  which is `false` whenever `value` is a native number (`JSVal.eqBig`).
* A thrown exception carries the builder state at throw time, since the
  mutated `this` survives the throw: operations return
  `Except (WriteError × BitBuilder) BitBuilder`.
* Integral inputs are assumed (the TypeScript code is only ever called with
  integers); `Number.isSafeInteger` checks on values already bounded by
  256 / 65537 are subsumed by those bounds for integral inputs.
-/

/-- Error taxonomy of the spec (section 7), mapped from the thrown `Error`s. -/
inductive WriteError where
  | overflow
  | invalidLength
  | valueMismatch
  | rangeError
  | invalidAddress
deriving DecidableEq

/-- A JavaScript `bigint | number` with known integral value. -/
inductive JSVal where
  | num (v : Int)
  | big (v : Int)
deriving DecidableEq

/-- `BigInt(value)` / `Number(value)` conversion (both yield the same integer
for integral inputs). -/
def JSVal.toInt : JSVal → Int
  | .num v => v
  | .big v => v

/-- Strict equality `value === n` against a bigint literal `n`: always false
for a native number, value comparison for a bigint. -/
def JSVal.eqBig : JSVal → Int → Bool
  | .num _, _ => false
  | .big v, n => v = n

/-- The builder state: backing byte buffer `_buffer` and bit count `_length`. -/
structure BitBuilder where
  buffer : List Nat
  length : Nat
deriving DecidableEq

/-- `new BitBuilder(size)`: `Buffer.alloc(Math.ceil(size / 8))` zero bytes,
zero length. -/
def mkBuilder (size : Nat := 1023) : BitBuilder :=
  ⟨List.replicate ((size + 7) / 8) 0, 0⟩

instance {ε α : Type} [DecidableEq ε] [DecidableEq α] : DecidableEq (Except ε α) := fun x y =>
  match x, y with
  | .ok a, .ok b => if h : a = b then .isTrue (by rw [h]) else .isFalse (by simp [h])
  | .error a, .error b => if h : a = b then .isTrue (by rw [h]) else .isFalse (by simp [h])
  | .ok _, .error _ => .isFalse (by simp)
  | .error _, .ok _ => .isFalse (by simp)

/-- Result of a write call: final builder state, or the error together with
the builder state at throw time. -/
abbrev WRes := Except (WriteError × BitBuilder) BitBuilder

/-- `writeBit(value)`. The overflow check is the source's literal
`n > this._buffer.length * 8`. Setting the bit ORs `1 << (7 - n % 8)` into
byte `n / 8`; the Buffer store coerces `% 256` and is dropped if the index
is out of bounds (`List.set` semantics). -/
def writeBit (b : BitBuilder) (value : Bool) : WRes :=
  let n := b.length
  if n > b.buffer.length * 8 then
    .error (.overflow, b)
  else
    let buf :=
      if value then
        b.buffer.set (n / 8) ((b.buffer.getD (n / 8) 0 ||| (1 <<< (7 - n % 8))) % 256)
      else b.buffer
    .ok ⟨buf, n + 1⟩

/-- The loop `for (let i = 0; i < src.length; i++) this.writeBit(src.at(i))`
over a list of bits. -/
def writeBitList (b : BitBuilder) (l : List Bool) : WRes :=
  match l with
  | [] => .ok b
  | x :: xs =>
    match writeBit b x with
    | .error e => .error e
    | .ok b' => writeBitList b' xs

/-- Modelled from the spec: `writeBits(src: BitString)` where `BitString`
(not part of the given sources) is "a finished bit-sequence value exposing a
length and indexed bit access"; it is taken to be its list of bits, copied
in order through the bit primitive. -/
def writeBits (b : BitBuilder) (src : List Bool) : WRes :=
  writeBitList b src

/-- Little-endian bit decomposition of `v`: the loop
`while (v > 0) { b.push(v % 2n === 1n); v /= 2n; }`. The first argument is
fuel (at least `v`) making the recursion structural. -/
def toBitsLEAux : Nat → Nat → List Bool
  | 0, _ => []
  | fuel + 1, v =>
    if v = 0 then [] else decide (v % 2 = 1) :: toBitsLEAux fuel (v / 2)

/-- Little-endian bit list of `v` (empty for `v = 0`). Its length is the
binary-digit count `v.toString(2).length` used by the variable-length
encoders (for `v > 0`). -/
def toBitsLE (v : Nat) : List Bool := toBitsLEAux v v

/-- The MSB-first emission loop of the generic `writeUint` path:
`for (let i = 0; i < bits; i++) { let off = bits - i - 1; ... }`, reindexed
by the number `rem = bits - i` of bits still to write, so `off = rem - 1`. -/
def writeBitsMSB (bl : List Bool) : Nat → BitBuilder → WRes
  | 0, b => .ok b
  | rem + 1, b =>
    match writeBit b (bl.getD rem false) with
    | .error e => .error e
    | .ok b' => writeBitsMSB bl rem b'

/-- `writeUint(value, bits)`: byte-aligned fast paths for 8 and 16 bits
(note the source's 16-bit range check is `v > 65536`), then the generic
path: zero-width corner case (strict `value !== 0n` against the raw input),
range check on the converted value, and MSB-first bit emission. -/
def writeUint (b : BitBuilder) (value : JSVal) (bits : Nat) : WRes :=
  if bits = 8 ∧ b.length % 8 = 0 then
    if value.toInt < 0 ∨ value.toInt > 255 then .error (.rangeError, b)
    else .ok ⟨b.buffer.set (b.length / 8) (value.toInt.toNat % 256), b.length + 8⟩
  else if bits = 16 ∧ b.length % 8 = 0 then
    if value.toInt < 0 ∨ value.toInt > 65536 then .error (.rangeError, b)
    else
      .ok ⟨(b.buffer.set (b.length / 8) ((value.toInt.toNat >>> 8) % 256)).set
             (b.length / 8 + 1) (value.toInt.toNat % 256),
           b.length + 16⟩
  else if bits = 0 then
    if ¬ value.eqBig 0 then .error (.valueMismatch, b) else .ok b
  else
    if value.toInt < 0 ∨ value.toInt ≥ 2 ^ bits then .error (.rangeError, b)
    else writeBitsMSB (toBitsLE value.toInt.toNat) bits b

/-- `writeInt(value, bits)`: zero-width and one-bit corner cases (both with
strict bigint comparisons on the raw input), two's-complement range check,
sign bit, then the `(bits-1)`-wide magnitude via `writeUint` (always passed
as a bigint). -/
def writeInt (b : BitBuilder) (value : JSVal) (bits : Nat) : WRes :=
  if bits = 0 then
    if ¬ value.eqBig 0 then .error (.valueMismatch, b) else .ok b
  else if bits = 1 then
    if ¬ value.eqBig (-1) ∧ ¬ value.eqBig 0 then .error (.rangeError, b)
    else writeBit b (value.eqBig (-1))
  else
    let v := value.toInt
    let vBits : Int := 2 ^ (bits - 1)
    if v < -vBits ∨ v ≥ vBits then .error (.rangeError, b)
    else
      match writeBit b (decide (v < 0)) with
      | .error e => .error e
      | .ok b' => writeUint b' (.big (if v < 0 then vBits + v else v)) (bits - 1)

/-- `Math.ceil(v.toString(2).length / 8)`: minimal whole-byte count holding
the magnitude of `v > 0`. -/
def varUintSize (v : Nat) : Nat := ((toBitsLE v).length + 7) / 8

/-- `writeVarUint(value, bits)`: negative input rejected, zero writes a
zero size field (as the native number `0`), otherwise the byte count (a
native number) as the size field followed by the value (a bigint). -/
def writeVarUint (b : BitBuilder) (value : JSVal) (bits : Nat) : WRes :=
  let v := value.toInt
  if v < 0 then .error (.rangeError, b)
  else if v = 0 then writeUint b (.num 0) bits
  else
    let sizeBytes := varUintSize v.toNat
    match writeUint b (.num (sizeBytes : Int)) bits with
    | .error e => .error e
    | .ok b' => writeUint b' (.big v) (sizeBytes * 8)

/-- `writeVarInt(value, bits)`: zero writes a zero size field, otherwise the
byte count is one more than the minimal byte count for the magnitude, and
the value is written signed. -/
def writeVarInt (b : BitBuilder) (value : JSVal) (bits : Nat) : WRes :=
  let v := value.toInt
  if v = 0 then writeUint b (.num 0) bits
  else
    let v2 := if v > 0 then v else -v
    let sizeBytes := 1 + varUintSize v2.toNat
    match writeUint b (.num (sizeBytes : Int)) bits with
    | .error e => .error e
    | .ok b' => writeInt b' (.big v) (sizeBytes * 8)

/-- `writeCoins(amount)` = `writeVarUint(amount, 4)`. -/
def writeCoins (b : BitBuilder) (amount : JSVal) : WRes :=
  writeVarUint b amount 4

/-- `src.copy(this._buffer, off)`: byte-wise copy of `src` into the target
starting at byte `off` (the caller has already checked that it fits). -/
def copyInto (tgt : List Nat) (off : Nat) (src : List Nat) : List Nat :=
  match src with
  | [] => tgt
  | x :: xs => copyInto (tgt.set off x) (off + 1) xs

/-- The unaligned fallback loop of `writeBuffer`:
`for (let i = 0; i < src.length; i++) this.writeUint(src[i], 8)`. -/
def writeBufferLoop (b : BitBuilder) (src : List Nat) : WRes :=
  match src with
  | [] => .ok b
  | x :: xs =>
    match writeUint b (.num (x : Int)) 8 with
    | .error e => .error e
    | .ok b' => writeBufferLoop b' xs

/-- `writeBuffer(src)`: aligned bulk copy with overflow check, otherwise the
byte-by-byte fallback. -/
def writeBuffer (b : BitBuilder) (src : List Nat) : WRes :=
  if b.length % 8 = 0 then
    if b.length + src.length * 8 > b.buffer.length * 8 then .error (.overflow, b)
    else .ok ⟨copyInto b.buffer (b.length / 8) src, b.length + src.length * 8⟩
  else writeBufferLoop b src

/-- Modelled from the spec: an internal `Address` (class not part of the
given sources) is "an address value exposing a signed workchain integer and
a fixed-length hash byte sequence". -/
structure Address where
  workChain : Int
  hash : List Nat
deriving DecidableEq

/-- Modelled from the spec: an `ExternalAddress` (class not part of the
given sources) is "an external-address value exposing a bit-length and a
numeric value constrained to that width" (the value is a bigint, the
bit-length a number). -/
structure ExternalAddress where
  value : Int
  bits : Nat
deriving DecidableEq

/-- The possible runtime shapes of the `writeAddress` argument
`Maybe<Address | ExternalAddress>`: `null`/`undefined`, an internal
address, an external address, or (at runtime) anything else. -/
inductive MaybeAddress where
  | absent
  | internal (a : Address)
  | external (e : ExternalAddress)
  | invalid
deriving DecidableEq

/-- `writeAddress(address)`: 2-bit tag 0 for an absent address; tag 2, a
zero anycast bit, the 8-bit signed workchain and the raw hash bytes for an
internal address; tag 1, a 9-bit length and the value at that width for an
external address; otherwise an invalid-address error. -/
def writeAddress (b : BitBuilder) (address : MaybeAddress) : WRes :=
  match address with
  | .absent => writeUint b (.num 0) 2
  | .internal a =>
    match writeUint b (.num 2) 2 with
    | .error e => .error e
    | .ok b1 =>
      match writeUint b1 (.num 0) 1 with
      | .error e => .error e
      | .ok b2 =>
        match writeInt b2 (.num a.workChain) 8 with
        | .error e => .error e
        | .ok b3 => writeBuffer b3 a.hash
  | .external e =>
    match writeUint b (.num 1) 2 with
    | .error er => .error er
    | .ok b1 =>
      match writeUint b1 (.num (e.bits : Int)) 9 with
      | .error er => .error er
      | .ok b2 => writeUint b2 (.big e.value) e.bits
  | .invalid => .error (.invalidAddress, b)

/-- The builder state after a call, whether it returned or threw (the
mutated `this` survives a throw). -/
def after : WRes → BitBuilder
  | .ok b => b
  | .error (_, b) => b

/-- Observation: bit number `n` of the packed stream, MSB-first within each
byte (spec section 6: bit `n` lives in byte `n / 8` at intra-byte position
`7 - n % 8`). -/
def getBit (b : BitBuilder) (n : Nat) : Bool :=
  (b.buffer.getD (n / 8) 0).testBit (7 - n % 8)

/-- Observation: MSB-first unsigned decode of `width` bits starting at bit
`start`. -/
def readUint (b : BitBuilder) (start width : Nat) : Nat :=
  (List.range width).foldl (fun acc i => 2 * acc + (if getBit b (start + i) then 1 else 0)) 0

/-- Observation: MSB-first two's-complement signed decode of `width ≥ 2`
bits starting at bit `start`: a sign bit, then `width - 1` magnitude bits. -/
def readIntTC (b : BitBuilder) (start width : Nat) : Int :=
  if getBit b start then (readUint b (start + 1) (width - 1) : Int) - 2 ^ (width - 1)
  else (readUint b (start + 1) (width - 1) : Int)

/-- Invariant (spec section 3): every bit at index at or beyond `length` is
zero. -/
def ZerosFrom (b : BitBuilder) : Prop :=
  ∀ p, b.length ≤ p → getBit b p = false

/-! ### Concrete evaluations settling the boundary-behaviour claims -/

/-- Claim C1. The claim states that a write whose completion would take the
bit length beyond the constructed capacity fails with an overflow error and
never silently drops bits; evaluating the code refutes this: on a full
one-byte builder (capacity 8, length 8) the byte-aligned 8-bit fast path of
`writeUint` performs no capacity check, succeeds, advances `length` to 16,
and silently drops the byte (the out-of-bounds store is discarded, the
buffer still holds only `[5]`). -/
theorem writeUint_fast8_silent_drop_beyond_capacity :
    writeUint ⟨[5], 8⟩ (.num 7) 8 = .ok ⟨[5], 16⟩ := by decide

/-- Claim C3. The claim states `writeUint(v, 16)` fails for every
`v ≥ 65536` regardless of alignment; evaluating the code refutes this: on a
byte-aligned builder the 16-bit fast path's range check is `v > 65536`, so
`writeUint(65536, 16)` succeeds and stores the bytes `00 00` — the same
encoding as the value 0. -/
theorem writeUint_fast16_accepts_65536 :
    writeUint (mkBuilder 16) (.num 65536) 16 = .ok ⟨[0, 0], 16⟩ := by decide

/-- Claim C7. The claim states `writeUint(0, 0)` and `writeInt(0, 0)`
succeed whether the zero is a native number or a bigint; evaluating the code
refutes the native-number half: the zero-width check compares the raw input
with `0n` by strict equality (`value !== 0n`), which is true for the native
number ` 0`, so both calls throw the value-mismatch error, while the bigint
`0n` succeeds emitting nothing, and a nonzero value fails as claimed. -/
theorem writeUint_zero_bits_number_vs_bigint :
    writeUint (mkBuilder 8) (.num 0) 0 = .error (.valueMismatch, mkBuilder 8)
    ∧ writeInt (mkBuilder 8) (.num 0) 0 = .error (.valueMismatch, mkBuilder 8)
    ∧ writeUint (mkBuilder 8) (.big 0) 0 = .ok (mkBuilder 8)
    ∧ writeInt (mkBuilder 8) (.big 0) 0 = .ok (mkBuilder 8)
    ∧ writeUint (mkBuilder 8) (.big 1) 0 = .error (.valueMismatch, mkBuilder 8)
    ∧ writeUint (mkBuilder 8) (.num 1) 0 = .error (.valueMismatch, mkBuilder 8) := by
  refine ⟨by decide, by decide, by decide, by decide, by decide, by decide⟩

/-- Claim C8. The claim states `writeInt(value, 1)` succeeds exactly for 0
and -1 whether supplied as native number or bigint; evaluating the code
refutes the native-number half: the one-bit check compares the raw input
with `-1n` and `0n` by strict equality, so the native numbers `-1` and ` 0`
are rejected with the range error, while the bigints behave as claimed
(one bit, `1` for `-1n`, `0` for `0n`, any other bigint rejected). -/
theorem writeInt_one_bit_number_vs_bigint :
    writeInt (mkBuilder 8) (.num (-1)) 1 = .error (.rangeError, mkBuilder 8)
    ∧ writeInt (mkBuilder 8) (.num 0) 1 = .error (.rangeError, mkBuilder 8)
    ∧ writeInt (mkBuilder 8) (.big (-1)) 1 = .ok ⟨[128], 1⟩
    ∧ writeInt (mkBuilder 8) (.big 0) 1 = .ok ⟨[0], 1⟩
    ∧ writeInt (mkBuilder 8) (.big 1) 1 = .error (.rangeError, mkBuilder 8) := by
  refine ⟨by decide, by decide, by decide, by decide, by decide⟩

/-- Claim C5. The claim states `writeVarUint(0, sizeBits)` appends exactly a
`sizeBits`-wide zero size field for every `sizeBits`; evaluating the code at
`sizeBits = 0` refutes this: the zero case calls `writeUint(0, bits)` with
the native number ` 0`, whose zero-width check `value !== 0n` rejects it, so
the call throws the value-mismatch error instead of succeeding with an empty
field — for either input kind. (The claimed encoding for `sizeBits ≥ 1` is
proved in `writeVarUint_encoding`.) -/
theorem writeVarUint_zero_sizeBits_valueMismatch :
    writeVarUint (mkBuilder 16) (.num 0) 0 = .error (.valueMismatch, mkBuilder 16)
    ∧ writeVarUint (mkBuilder 16) (.big 0) 0 = .error (.valueMismatch, mkBuilder 16) := by
  refine ⟨by decide, by decide⟩

/-- Claim C2, counterexample. The claim states every failing call among the
listed encoders leaves the builder exactly as before the call; evaluating
`writeAddress` on an internal address with the out-of-range workchain 1000
refutes this: the call throws the range error only after emitting the 2-bit
tag and the anycast bit, leaving `length = 3` and the first byte `128` on a
fresh builder. -/
theorem writeAddress_mid_emission_state_change :
    writeAddress (mkBuilder 32) (.internal ⟨1000, []⟩)
      = .error (.rangeError, ⟨[128, 0, 0, 0], 3⟩)
    ∧ (⟨[128, 0, 0, 0], 3⟩ : BitBuilder) ≠ mkBuilder 32 := by
  refine ⟨by decide, by decide⟩

/-! ### Storage-level lemmas -/

theorem getD_set_self {l : List Nat} {i x : Nat} (h : i < l.length) :
    (l.set i x).getD i 0 = x := by
  simp [List.getD_eq_getElem?_getD, List.getElem?_set_self h]

theorem getD_set_ne {l : List Nat} {i j x : Nat} (h : i ≠ j) :
    (l.set i x).getD j 0 = l.getD j 0 := by
  simp [List.getD_eq_getElem?_getD, List.getElem?_set_ne h]

/-- The bit primitive: within capacity and on a clean bit position it
writes exactly bit number `length`, touching nothing else. -/
theorem writeBit_ok (b : BitBuilder) (v : Bool) (h : b.length < 8 * b.buffer.length)
    (hz : getBit b b.length = false) :
    ∃ b', writeBit b v = .ok b' ∧ b'.buffer.length = b.buffer.length ∧
      b'.length = b.length + 1 ∧ getBit b' b.length = v ∧
      ∀ p, p ≠ b.length → getBit b' p = getBit b p := by
  have hno : ¬ b.length > b.buffer.length * 8 := by omega
  have hB : b.length / 8 < b.buffer.length := by omega
  cases v with
  | false =>
    refine ⟨⟨b.buffer, b.length + 1⟩, ?_, rfl, rfl, hz, fun p _ => rfl⟩
    simp [writeBit, hno]
  | true =>
    refine ⟨⟨b.buffer.set (b.length / 8)
        ((b.buffer.getD (b.length / 8) 0 ||| (1 <<< (7 - b.length % 8))) % 256),
        b.length + 1⟩, ?_, by simp, rfl, ?_, ?_⟩
    · simp [writeBit, hno]
    · have hk : 7 - b.length % 8 < 8 := by omega
      show ((b.buffer.set _ _).getD (b.length / 8) 0).testBit (7 - b.length % 8) = true
      rw [getD_set_self hB]
      rw [show (256 : Nat) = 2 ^ 8 from rfl, Nat.testBit_mod_two_pow]
      simp [hk, Nat.testBit_or, Nat.testBit_shiftLeft]
    · intro p hp
      by_cases hpb : p / 8 = b.length / 8
      · have hpm : p % 8 ≠ b.length % 8 := by omega
        have hj : 7 - p % 8 < 8 := by omega
        have hjk : 7 - p % 8 ≠ 7 - b.length % 8 := by omega
        have hsh : Nat.testBit (1 <<< (7 - b.length % 8)) (7 - p % 8) = false := by
          rw [Nat.testBit_shiftLeft]
          rcases Nat.lt_or_ge (7 - p % 8) (7 - b.length % 8) with hlt | hge
          · simp [Nat.not_le.mpr hlt]
          · have hone : Nat.testBit 1 (7 - p % 8 - (7 - b.length % 8)) = false :=
              Nat.testBit_lt_two_pow
                (Nat.one_lt_two_pow_iff.mpr (by omega))
            simp [hone]
        show ((b.buffer.set _ _).getD (p / 8) 0).testBit (7 - p % 8) = _
        rw [hpb, getD_set_self hB]
        rw [show (256 : Nat) = 2 ^ 8 from rfl, Nat.testBit_mod_two_pow, Nat.testBit_or, hsh]
        have : getBit b p = (b.buffer.getD (b.length / 8) 0).testBit (7 - p % 8) := by
          unfold getBit; rw [hpb]
        rw [this]
        simp [hj]
      · show ((b.buffer.set (b.length / 8) _).getD (p / 8) 0).testBit (7 - p % 8) = _
        rw [getD_set_ne (fun hh => hpb hh.symm)]
        rfl

/-- The MSB-first emission loop writes `rem` bits taken from positions
`rem - 1, …, 0` of the bit list, in order, advancing `length` by `rem`. -/
theorem writeBitsMSB_ok (bl : List Bool) :
    ∀ rem b, ZerosFrom b → b.length + rem ≤ 8 * b.buffer.length →
    ∃ b', writeBitsMSB bl rem b = .ok b' ∧ b'.buffer.length = b.buffer.length ∧
      b'.length = b.length + rem ∧
      (∀ j, j < rem → getBit b' (b.length + j) = bl.getD (rem - 1 - j) false) ∧
      (∀ p, p < b.length → getBit b' p = getBit b p) ∧ ZerosFrom b' := by
  intro rem
  induction rem with
  | zero =>
    intro b hzf hcap
    exact ⟨b, rfl, rfl, rfl, fun j hj => absurd hj (Nat.not_lt_zero j),
      fun p _ => rfl, hzf⟩
  | succ rem ih =>
    intro b hzf hcap
    obtain ⟨b1, e1, hbuf1, hlen1, hbit1, hoth1⟩ :=
      writeBit_ok b (bl.getD rem false) (by omega) (hzf _ le_rfl)
    have hz1 : ZerosFrom b1 := by
      intro p hp
      rw [hoth1 p (by omega)]
      exact hzf p (by omega)
    obtain ⟨b', e', hbuf', hlen', hbits', hoth', hz'⟩ :=
      ih b1 hz1 (by rw [hlen1, hbuf1]; omega)
    refine ⟨b', ?_, by rw [hbuf', hbuf1], by omega, ?_, ?_, hz'⟩
    · show writeBitsMSB bl (rem + 1) b = .ok b'
      unfold writeBitsMSB
      rw [e1]
      exact e'
    · intro j hj
      cases j with
      | zero =>
        have : getBit b' b.length = getBit b1 b.length := hoth' _ (by omega)
        rw [Nat.add_zero, this, hbit1]
        simp
      | succ j' =>
        have hidx : b.length + (j' + 1) = b1.length + j' := by omega
        have : rem - 1 - j' = rem + 1 - 1 - (j' + 1) := by omega
        rw [hidx, hbits' j' (by omega), ← this]
    · intro p hp
      rw [hoth' p (by omega), hoth1 p (by omega)]

/-! ### Bit-decomposition lemmas -/

theorem toBitsLEAux_stable :
    ∀ f1 f2 v, v ≤ f1 → v ≤ f2 → toBitsLEAux f1 v = toBitsLEAux f2 v := by
  intro f1
  induction f1 with
  | zero =>
    intro f2 v h1 _
    have : v = 0 := by omega
    subst this
    cases f2 with
    | zero => rfl
    | succ f2 => simp [toBitsLEAux]
  | succ f1 ih =>
    intro f2 v h1 h2
    cases f2 with
    | zero =>
      have : v = 0 := by omega
      subst this
      simp [toBitsLEAux]
    | succ f2 =>
      by_cases hv : v = 0
      · subst hv; simp [toBitsLEAux]
      · simp only [toBitsLEAux, if_neg hv]
        rw [ih f2 (v / 2) (by omega) (by omega)]

theorem toBitsLE_eq (v : Nat) :
    toBitsLE v = if v = 0 then [] else decide (v % 2 = 1) :: toBitsLE (v / 2) := by
  cases v with
  | zero => rfl
  | succ n =>
    show toBitsLEAux (n + 1) (n + 1) = _
    rw [if_neg (Nat.succ_ne_zero n)]
    simp only [toBitsLEAux, if_neg (Nat.succ_ne_zero n)]
    rw [toBitsLEAux_stable n ((n + 1) / 2) ((n + 1) / 2) (by omega) le_rfl]
    rfl

theorem toBitsLE_getD (v : Nat) : ∀ k, (toBitsLE v).getD k false = v.testBit k := by
  induction v using Nat.strong_induction_on with
  | _ v ih =>
    intro k
    rw [toBitsLE_eq]
    by_cases h : v = 0
    · simp [h, Nat.zero_testBit]
    · rw [if_neg h]
      cases k with
      | zero => simp
      | succ k =>
        rw [Nat.testBit_add_one]
        simpa using ih (v / 2) (Nat.div_lt_self (by omega) (by omega)) k

theorem lt_two_pow_toBitsLE_length (v : Nat) : v < 2 ^ (toBitsLE v).length := by
  induction v using Nat.strong_induction_on with
  | _ v ih =>
    rw [toBitsLE_eq]
    by_cases h : v = 0
    · simp [h]
    · rw [if_neg h]
      simp only [List.length_cons]
      have := ih (v / 2) (Nat.div_lt_self (by omega) (by omega))
      rw [Nat.pow_succ]
      omega

/-! ### Decode lemmas -/

theorem foldl_two_mul_init (g : Nat → Bool) (l : List Nat) :
    ∀ a, l.foldl (fun acc i => 2 * acc + (if g i then 1 else 0)) a
      = a * 2 ^ l.length + l.foldl (fun acc i => 2 * acc + (if g i then 1 else 0)) 0 := by
  induction l with
  | nil => intro a; simp
  | cons x xs ih =>
    intro a
    simp only [List.foldl_cons, List.length_cons]
    rw [ih (2 * a + _), ih (2 * 0 + _)]
    rw [Nat.pow_succ]
    cases g x <;> simp <;> ring

theorem readUint_succ (b : BitBuilder) (start w : Nat) :
    readUint b start (w + 1)
      = (if getBit b start then 1 else 0) * 2 ^ w + readUint b (start + 1) w := by
  unfold readUint
  rw [List.range_succ_eq_map]
  simp only [List.foldl_cons, List.foldl_map, Nat.mul_zero, Nat.zero_add, Nat.add_zero]
  have hfun : (fun (acc i : Nat) => 2 * acc + (if getBit b (start + (i + 1)) then 1 else 0))
      = (fun (acc i : Nat) => 2 * acc + (if getBit b ((start + 1) + i) then 1 else 0)) := by
    funext acc i
    rw [show start + (i + 1) = (start + 1) + i by omega]
  have hsucc : (fun (acc i : Nat) => 2 * acc + (if getBit b (start + Nat.succ i) then 1 else 0))
      = (fun (acc i : Nat) => 2 * acc + (if getBit b ((start + 1) + i) then 1 else 0)) := by
    funext acc i
    rw [show start + Nat.succ i = (start + 1) + i by omega]
  rw [hsucc, foldl_two_mul_init (fun i => getBit b ((start + 1) + i)) (List.range w)]
  simp [List.length_range]

theorem readUint_eq (b : BitBuilder) :
    ∀ (w start v : Nat), v < 2 ^ w →
    (∀ i, i < w → getBit b (start + i) = v.testBit (w - 1 - i)) →
    readUint b start w = v := by
  intro w
  induction w with
  | zero =>
    intro start v hv _
    have : v = 0 := by omega
    simp [readUint, this]
  | succ w ih =>
    intro start v hv hbits
    rw [readUint_succ]
    have hmsb : getBit b start = v.testBit w := by
      have := hbits 0 (by omega)
      simpa using this
    have hrest : readUint b (start + 1) w = v % 2 ^ w := by
      apply ih (start + 1) (v % 2 ^ w) (Nat.mod_lt _ (Nat.pos_pow_of_pos w (by omega)))
      intro i hi
      have h1 : w + 1 - 1 - (i + 1) = w - 1 - i := by omega
      have h2 : w - 1 - i < w := by omega
      have := hbits (i + 1) (by omega)
      rw [show start + (i + 1) = (start + 1) + i by omega, h1] at this
      rw [this, Nat.testBit_mod_two_pow]
      simp [h2]
    rw [hrest, hmsb]
    have hdm := Nat.div_add_mod v (2 ^ w)
    have hq : v / 2 ^ w < 2 := by
      rw [Nat.div_lt_iff_lt_mul (Nat.pos_pow_of_pos w (by omega))]
      rw [Nat.pow_succ] at hv
      omega
    rw [Nat.testBit_to_div_mod]
    rcases Nat.lt_or_ge (v / 2 ^ w) 1 with h0 | h1
    · have hq0 : v / 2 ^ w = 0 := Nat.lt_one_iff.mp h0
      rw [hq0] at hdm
      simp only [Nat.mul_zero, Nat.zero_add] at hdm
      simp [hq0, hdm]
    · have hq1 : v / 2 ^ w = 1 := Nat.le_antisymm (Nat.lt_succ_iff.mp hq) h1
      rw [hq1] at hdm
      simp only [Nat.mul_one] at hdm
      simp only [hq1]
      norm_num
      omega

/-! ### Correctness of the unsigned fixed-width encoder -/

theorem writeUint_ok (b : BitBuilder) (value : JSVal) (w : Nat)
    (hz : ZerosFrom b) (hw : 1 ≤ w) (h0 : 0 ≤ value.toInt)
    (h2 : value.toInt < 2 ^ w)
    (hcap : b.length + w ≤ 8 * b.buffer.length) :
    ∃ b', writeUint b value w = .ok b' ∧ b'.buffer.length = b.buffer.length ∧
      b'.length = b.length + w ∧
      (∀ i, i < w → getBit b' (b.length + i) = value.toInt.toNat.testBit (w - 1 - i)) ∧
      (∀ p, p < b.length → getBit b' p = getBit b p) ∧ ZerosFrom b' := by
  have hvNI : (value.toInt.toNat : Int) = value.toInt := Int.toNat_of_nonneg h0
  have hvN : value.toInt.toNat < 2 ^ w := by
    have h' : (value.toInt.toNat : Int) < ((2 ^ w : Nat) : Int) := by
      rw [hvNI]; push_cast; exact h2
    exact_mod_cast h'
  by_cases hA : w = 8 ∧ b.length % 8 = 0
  · obtain ⟨hw8, hal⟩ := hA
    subst hw8
    have hvN8 : value.toInt.toNat < 256 := by
      have := hvN; norm_num at this; exact this
    have hle : ¬ (value.toInt < 0 ∨ value.toInt > 255) := by
      push_neg
      exact ⟨h0, by omega⟩
    have heq : writeUint b value 8
        = .ok ⟨b.buffer.set (b.length / 8) (value.toInt.toNat % 256), b.length + 8⟩ := by
      unfold writeUint
      rw [if_pos ⟨rfl, hal⟩, if_neg hle]
    have hm : value.toInt.toNat % 256 = value.toInt.toNat := Nat.mod_eq_of_lt hvN8
    have hBlt : b.length / 8 < b.buffer.length := by omega
    refine ⟨_, heq, by simp, rfl, ?_, ?_, ?_⟩
    · intro i hi
      have hdiv : (b.length + i) / 8 = b.length / 8 := by omega
      have hmod : (b.length + i) % 8 = i := by omega
      show ((b.buffer.set _ _).getD ((b.length + i) / 8) 0).testBit (7 - (b.length + i) % 8) = _
      rw [hdiv, hmod, getD_set_self hBlt, hm]
    · intro p hp
      show ((b.buffer.set _ _).getD (p / 8) 0).testBit (7 - p % 8) = _
      rw [getD_set_ne (by omega)]
      rfl
    · intro p hp
      have hp' : b.length + 8 ≤ p := hp
      show ((b.buffer.set _ _).getD (p / 8) 0).testBit (7 - p % 8) = false
      rw [getD_set_ne (by omega)]
      exact hz p (by omega)
  · by_cases hB : w = 16 ∧ b.length % 8 = 0
    · obtain ⟨hw16, hal⟩ := hB
      subst hw16
      have hvN16 : value.toInt.toNat < 65536 := by
        have := hvN; norm_num at this; exact this
      have hle : ¬ (value.toInt < 0 ∨ value.toInt > 65536) := by
        push_neg
        refine ⟨h0, ?_⟩
        have : value.toInt < 65536 := by rw [← hvNI]; exact_mod_cast hvN16
        omega
      have heq : writeUint b value 16
          = .ok ⟨(b.buffer.set (b.length / 8) ((value.toInt.toNat >>> 8) % 256)).set
                   (b.length / 8 + 1) (value.toInt.toNat % 256), b.length + 16⟩ := by
        unfold writeUint
        rw [if_neg hA, if_pos ⟨rfl, hal⟩, if_neg hle]
      have hsh : value.toInt.toNat >>> 8 < 256 := by
        rw [Nat.shiftRight_eq_div_pow]
        omega
      have hhi : (value.toInt.toNat >>> 8) % 256 = value.toInt.toNat >>> 8 :=
        Nat.mod_eq_of_lt hsh
      have hBlt : b.length / 8 < b.buffer.length := by omega
      have hBlt1 : b.length / 8 + 1 < b.buffer.length := by omega
      refine ⟨_, heq, by simp, rfl, ?_, ?_, ?_⟩
      · intro i hi
        rcases Nat.lt_or_ge i 8 with hi8 | hi8
        · have hdiv : (b.length + i) / 8 = b.length / 8 := by omega
          have hmod : (b.length + i) % 8 = i := by omega
          show (((b.buffer.set _ _).set _ _).getD ((b.length + i) / 8) 0).testBit
              (7 - (b.length + i) % 8) = _
          rw [hdiv, hmod, getD_set_ne (by omega), getD_set_self hBlt, hhi,
            Nat.testBit_shiftRight]
          have : 8 + (7 - i) = 16 - 1 - i := by omega
          rw [this]
        · have hdiv : (b.length + i) / 8 = b.length / 8 + 1 := by omega
          have hmod : (b.length + i) % 8 = i - 8 := by omega
          have hBlt1' : b.length / 8 + 1
              < (b.buffer.set (b.length / 8) ((value.toInt.toNat >>> 8) % 256)).length := by
            simpa using hBlt1
          show (((b.buffer.set _ _).set _ _).getD ((b.length + i) / 8) 0).testBit
              (7 - (b.length + i) % 8) = _
          rw [hdiv, hmod, getD_set_self hBlt1',
            show (256 : Nat) = 2 ^ 8 from rfl, Nat.testBit_mod_two_pow]
          have hlt8 : 7 - (i - 8) < 8 := by omega
          have : 7 - (i - 8) = 16 - 1 - i := by omega
          simp only [this]
          simp
          omega
      · intro p hp
        show (((b.buffer.set _ _).set _ _).getD (p / 8) 0).testBit (7 - p % 8) = _
        rw [getD_set_ne (by omega), getD_set_ne (by omega)]
        rfl
      · intro p hp
        have hp' : b.length + 16 ≤ p := hp
        show (((b.buffer.set _ _).set _ _).getD (p / 8) 0).testBit (7 - p % 8) = false
        rw [getD_set_ne (by omega), getD_set_ne (by omega)]
        exact hz p (by omega)
    · have hn0 : ¬ (w = 0) := by omega
      have hle : ¬ (value.toInt < 0 ∨ value.toInt ≥ 2 ^ w) := by
        push_neg
        exact ⟨h0, h2⟩
      have heq : writeUint b value w = writeBitsMSB (toBitsLE value.toInt.toNat) w b := by
        unfold writeUint
        rw [if_neg hA, if_neg hB, if_neg hn0, if_neg hle]
      obtain ⟨b', e', hbuf', hlen', hbits', hoth', hz'⟩ :=
        writeBitsMSB_ok (toBitsLE value.toInt.toNat) w b hz hcap
      refine ⟨b', heq.trans e', hbuf', hlen', ?_, hoth', hz'⟩
      intro i hi
      rw [hbits' i hi, toBitsLE_getD]

/-! ### Correctness of the signed fixed-width encoder -/

theorem writeInt_ok (b : BitBuilder) (value : JSVal) (w : Nat)
    (hz : ZerosFrom b) (hw : 2 ≤ w)
    (hlo : -(2 ^ (w - 1) : Int) ≤ value.toInt) (hhi : value.toInt < 2 ^ (w - 1))
    (hcap : b.length + w ≤ 8 * b.buffer.length) :
    ∃ b', writeInt b value w = .ok b' ∧ b'.buffer.length = b.buffer.length ∧
      b'.length = b.length + w ∧
      getBit b' b.length = decide (value.toInt < 0) ∧
      (∀ i, i < w - 1 → getBit b' (b.length + 1 + i)
        = ((if value.toInt < 0 then (2 ^ (w - 1) : Int) + value.toInt
            else value.toInt).toNat).testBit (w - 1 - 1 - i)) ∧
      (∀ p, p < b.length → getBit b' p = getBit b p) ∧ ZerosFrom b' := by
  have hn0 : ¬ (w = 0) := by omega
  have hn1 : ¬ (w = 1) := by omega
  have hrange : ¬ (value.toInt < -(2 ^ (w - 1) : Int) ∨ value.toInt ≥ (2 ^ (w - 1) : Int)) := by
    push_neg
    exact ⟨hlo, hhi⟩
  obtain ⟨b1, e1, hbuf1, hlen1, hbit1, hoth1⟩ :=
    writeBit_ok b (decide (value.toInt < 0)) (by omega) (hz _ le_rfl)
  have hz1 : ZerosFrom b1 := by
    intro p hp
    rw [hoth1 p (by omega)]
    exact hz p (by omega)
  have hmag0 : (0 : Int)
      ≤ (if value.toInt < 0 then (2 ^ (w - 1) : Int) + value.toInt else value.toInt) := by
    by_cases hvneg : value.toInt < 0
    · rw [if_pos hvneg]; linarith
    · rw [if_neg hvneg]; exact Int.not_lt.mp hvneg
  have hmag2 : (if value.toInt < 0 then (2 ^ (w - 1) : Int) + value.toInt else value.toInt)
      < (2 ^ (w - 1) : Int) := by
    by_cases hvneg : value.toInt < 0
    · rw [if_pos hvneg]; linarith
    · rw [if_neg hvneg]; exact hhi
  obtain ⟨b2, e2, hbuf2, hlen2, hbits2, hoth2, hz2⟩ :=
    writeUint_ok b1
      (.big (if value.toInt < 0 then (2 ^ (w - 1) : Int) + value.toInt else value.toInt))
      (w - 1) hz1 (by omega) hmag0 hmag2 (by rw [hlen1, hbuf1]; omega)
  refine ⟨b2, ?_, by rw [hbuf2, hbuf1], by omega, ?_, ?_, ?_, hz2⟩
  · simp only [writeInt, if_neg hn0, if_neg hn1, if_neg hrange]
    rw [e1]
    exact e2
  · rw [hoth2 b.length (by omega), hbit1]
  · intro i hi
    have : b.length + 1 + i = b1.length + i := by omega
    rw [this, hbits2 i hi]
    rfl
  · intro p hp
    rw [hoth2 p (by omega), hoth1 p (by omega)]

theorem zerosFrom_mkBuilder (size : Nat) : ZerosFrom (mkBuilder size) := by
  intro p _
  show ((List.replicate ((size + 7) / 8) 0).getD (p / 8) 0).testBit (7 - p % 8) = false
  have hget : (List.replicate ((size + 7) / 8) (0 : Nat)).getD (p / 8) 0 = 0 := by
    simp only [List.getD_eq_getElem?_getD, List.getElem?_replicate]
    split <;> rfl
  rw [hget]
  exact Nat.zero_testBit _

/-- Claim C4. For every width `b ≥ 2` and every value `v` with
`-2^(b-1) ≤ v < 2^(b-1)` (and room left in the builder), `writeInt(v, b)`
appends exactly `b` bits: a sign bit that is set exactly when `v < 0`,
followed by the `(b-1)`-bit big-endian unsigned encoding of `v` itself when
`v ≥ 0` and of `2^(b-1) + v` when `v < 0`, so that MSB-first
two's-complement decoding of those `b` bits reproduces `v` exactly. -/
theorem writeInt_twos_complement (b : BitBuilder) (value : JSVal) (w : Nat)
    (hz : ZerosFrom b) (hw : 2 ≤ w)
    (hlo : -(2 ^ (w - 1) : Int) ≤ value.toInt) (hhi : value.toInt < 2 ^ (w - 1))
    (hcap : b.length + w ≤ 8 * b.buffer.length) :
    ∃ b', writeInt b value w = .ok b' ∧ b'.length = b.length + w ∧
      getBit b' b.length = decide (value.toInt < 0) ∧
      (readUint b' (b.length + 1) (w - 1) : Int)
        = (if value.toInt < 0 then (2 ^ (w - 1) : Int) + value.toInt else value.toInt) ∧
      readIntTC b' b.length w = value.toInt := by
  obtain ⟨b', e, hbuf, hlen, hsign, hbits, hoth, hz'⟩ :=
    writeInt_ok b value w hz hw hlo hhi hcap
  have hmag0 : (0 : Int)
      ≤ (if value.toInt < 0 then (2 ^ (w - 1) : Int) + value.toInt else value.toInt) := by
    by_cases hvneg : value.toInt < 0
    · rw [if_pos hvneg]; linarith
    · rw [if_neg hvneg]; exact Int.not_lt.mp hvneg
  have hmag2 : (if value.toInt < 0 then (2 ^ (w - 1) : Int) + value.toInt else value.toInt)
      < (2 ^ (w - 1) : Int) := by
    by_cases hvneg : value.toInt < 0
    · rw [if_pos hvneg]; linarith
    · rw [if_neg hvneg]; exact hhi
  have hmagN : ((if value.toInt < 0 then (2 ^ (w - 1) : Int) + value.toInt
      else value.toInt).toNat) < 2 ^ (w - 1) := by
    have hc : (((if value.toInt < 0 then (2 ^ (w - 1) : Int) + value.toInt
        else value.toInt).toNat : Int)) < ((2 ^ (w - 1) : Nat) : Int) := by
      rw [Int.toNat_of_nonneg hmag0]
      push_cast
      exact hmag2
    exact_mod_cast hc
  have hread : readUint b' (b.length + 1) (w - 1)
      = ((if value.toInt < 0 then (2 ^ (w - 1) : Int) + value.toInt
          else value.toInt).toNat) :=
    readUint_eq b' (w - 1) (b.length + 1) _ hmagN hbits
  have hreadI : (readUint b' (b.length + 1) (w - 1) : Int)
      = (if value.toInt < 0 then (2 ^ (w - 1) : Int) + value.toInt else value.toInt) := by
    rw [hread, Int.toNat_of_nonneg hmag0]
  refine ⟨b', e, hlen, hsign, hreadI, ?_⟩
  unfold readIntTC
  rw [hsign, hreadI]
  simp only [decide_eq_true_eq]
  by_cases hvneg : value.toInt < 0
  · rw [if_pos hvneg, if_pos hvneg]
    ring
  · rw [if_neg hvneg, if_neg hvneg]

/-- Witness for claim C4 at a concrete input: `writeInt(-5n, 8)` on a fresh
default builder writes the sign bit `1` and the 7-bit magnitude `123`, and
decodes back to `-5`. -/
theorem writeInt_twos_complement_witness :
    ∃ b', writeInt (mkBuilder 16) (.big (-5)) 8 = .ok b' ∧ b'.length = 8 ∧
      getBit b' 0 = true ∧ (readUint b' 1 7 : Int) = 123 ∧ readIntTC b' 0 8 = -5 := by
  have h := writeInt_twos_complement (mkBuilder 16) (.big (-5)) 8
    (zerosFrom_mkBuilder 16) (by decide) (by decide) (by decide) (by decide)
  simpa using h

/-! ### Correctness of the buffer writer -/

theorem copyInto_length (src : List Nat) :
    ∀ tgt off, (copyInto tgt off src).length = tgt.length := by
  induction src with
  | nil => intro tgt off; rfl
  | cons x xs ih =>
    intro tgt off
    show (copyInto (tgt.set off x) (off + 1) xs).length = _
    rw [ih]
    simp

theorem copyInto_getD_lt (src : List Nat) :
    ∀ tgt off j, j < off → (copyInto tgt off src).getD j 0 = tgt.getD j 0 := by
  induction src with
  | nil => intro tgt off j _; rfl
  | cons x xs ih =>
    intro tgt off j hj
    show (copyInto (tgt.set off x) (off + 1) xs).getD j 0 = _
    rw [ih _ _ _ (by omega), getD_set_ne (by omega)]

theorem copyInto_getD_ge (src : List Nat) :
    ∀ tgt off j, off + src.length ≤ j →
      (copyInto tgt off src).getD j 0 = tgt.getD j 0 := by
  induction src with
  | nil => intro tgt off j _; rfl
  | cons x xs ih =>
    intro tgt off j hj
    simp only [List.length_cons] at hj
    show (copyInto (tgt.set off x) (off + 1) xs).getD j 0 = _
    rw [ih _ _ _ (by omega), getD_set_ne (by omega)]

theorem copyInto_getD_mid (src : List Nat) :
    ∀ tgt off i, i < src.length → off + src.length ≤ tgt.length →
      (copyInto tgt off src).getD (off + i) 0 = src.getD i 0 := by
  induction src with
  | nil =>
    intro tgt off i hi _
    exact absurd hi (by simp)
  | cons x xs ih =>
    intro tgt off i hi hfit
    simp only [List.length_cons] at hfit
    cases i with
    | zero =>
      show (copyInto (tgt.set off x) (off + 1) xs).getD (off + 0) 0 = _
      rw [copyInto_getD_lt xs (tgt.set off x) (off + 1) (off + 0) (by omega)]
      have hset : (tgt.set off x).getD (off + 0) 0 = x := by
        rw [Nat.add_zero]
        exact getD_set_self (by omega)
      rw [hset]
      rfl
    | succ i =>
      show (copyInto (tgt.set off x) (off + 1) xs).getD (off + (i + 1)) 0 = _
      have hsh : off + (i + 1) = (off + 1) + i := by omega
      rw [hsh, ih _ _ _ (by simpa using Nat.lt_of_succ_lt_succ hi) (by simp; omega)]
      rfl

theorem writeBufferLoop_ok (src : List Nat) :
    ∀ b, ZerosFrom b → (∀ x ∈ src, x < 256) →
      b.length + 8 * src.length ≤ 8 * b.buffer.length →
    ∃ b', writeBufferLoop b src = .ok b' ∧ b'.buffer.length = b.buffer.length ∧
      b'.length = b.length + 8 * src.length ∧
      (∀ i j, i < src.length → j < 8 →
        getBit b' (b.length + 8 * i + j) = (src.getD i 0).testBit (7 - j)) ∧
      (∀ p, p < b.length → getBit b' p = getBit b p) ∧ ZerosFrom b' := by
  induction src with
  | nil =>
    intro b hz _ _
    exact ⟨b, rfl, rfl, by simp, by intro i j hi; simp at hi, fun p _ => rfl, hz⟩
  | cons x xs ih =>
    intro b hz hsrc hcap
    simp only [List.length_cons] at hcap
    have hx : x < 256 := hsrc x (List.mem_cons_self x xs)
    obtain ⟨b1, e1, hbuf1, hlen1, hbits1, hoth1, hz1⟩ :=
      writeUint_ok b (.num (x : Int)) 8 hz (by omega)
        (Int.natCast_nonneg x)
        (by show (x : Int) < 2 ^ 8
            have : ((x : Int)) < ((256 : Nat) : Int) := by exact_mod_cast hx
            simpa using this)
        (by omega)
    obtain ⟨b', e', hbuf', hlen', hbits', hoth', hz'⟩ :=
      ih b1 hz1 (fun y hy => hsrc y (List.mem_cons_of_mem x hy))
        (by rw [hlen1, hbuf1]; omega)
    refine ⟨b', ?_, by rw [hbuf', hbuf1], by rw [hlen', hlen1]; simp only [List.length_cons]; ring, ?_, ?_, hz'⟩
    · show writeBufferLoop b (x :: xs) = .ok b'
      unfold writeBufferLoop
      rw [e1]
      exact e'
    · intro i j hi hj
      cases i with
      | zero =>
        have hpos : b.length + 8 * 0 + j = b.length + j := by omega
        rw [hpos, hoth' _ (by omega), hbits1 j hj]
        simp [JSVal.toInt]
      | succ i =>
        have hpos : b.length + 8 * (i + 1) + j = b1.length + 8 * i + j := by omega
        rw [hpos, hbits' i j (by simpa using Nat.lt_of_succ_lt_succ hi) hj]
        rfl
    · intro p hp
      rw [hoth' p (by omega), hoth1 p (by omega)]

theorem writeBuffer_ok (b : BitBuilder) (src : List Nat)
    (hz : ZerosFrom b) (hsrc : ∀ x ∈ src, x < 256)
    (hcap : b.length + 8 * src.length ≤ 8 * b.buffer.length) :
    ∃ b', writeBuffer b src = .ok b' ∧ b'.buffer.length = b.buffer.length ∧
      b'.length = b.length + 8 * src.length ∧
      (∀ i j, i < src.length → j < 8 →
        getBit b' (b.length + 8 * i + j) = (src.getD i 0).testBit (7 - j)) ∧
      (∀ p, p < b.length → getBit b' p = getBit b p) ∧ ZerosFrom b' := by
  by_cases hal : b.length % 8 = 0
  · have hno : ¬ (b.length + src.length * 8 > b.buffer.length * 8) := by omega
    have heq : writeBuffer b src
        = .ok ⟨copyInto b.buffer (b.length / 8) src, b.length + src.length * 8⟩ := by
      unfold writeBuffer
      rw [if_pos hal, if_neg hno]
    have hfit : b.length / 8 + src.length ≤ b.buffer.length := by omega
    refine ⟨_, heq, ?_, ?_, ?_, ?_, ?_⟩
    · show (copyInto b.buffer (b.length / 8) src).length = b.buffer.length
      exact copyInto_length src b.buffer (b.length / 8)
    · show b.length + src.length * 8 = b.length + 8 * src.length
      ring
    · intro i j hi hj
      have hdiv : (b.length + 8 * i + j) / 8 = b.length / 8 + i := by omega
      have hmod : (b.length + 8 * i + j) % 8 = j := by omega
      show ((copyInto b.buffer (b.length / 8) src).getD ((b.length + 8 * i + j) / 8) 0).testBit
          (7 - (b.length + 8 * i + j) % 8) = _
      rw [hdiv, hmod, copyInto_getD_mid src b.buffer (b.length / 8) i hi hfit]
    · intro p hp
      show ((copyInto b.buffer (b.length / 8) src).getD (p / 8) 0).testBit (7 - p % 8) = _
      rw [copyInto_getD_lt src _ _ _ (by omega)]
      rfl
    · intro p hp
      have hp' : b.length + src.length * 8 ≤ p := hp
      show ((copyInto b.buffer (b.length / 8) src).getD (p / 8) 0).testBit (7 - p % 8) = false
      rw [copyInto_getD_ge src _ _ _ (by omega)]
      exact hz p (by omega)
  · have heq : writeBuffer b src = writeBufferLoop b src := by
      unfold writeBuffer
      rw [if_neg hal]
    obtain ⟨b', e', hbuf', hlen', hbits', hoth', hz'⟩ := writeBufferLoop_ok src b hz hsrc hcap
    exact ⟨b', heq.trans e', hbuf', hlen', hbits', hoth', hz'⟩

/-- Claim C9. `writeBuffer` is path-independent: for every byte sequence
with bytes in `[0, 255]` and every builder state with enough remaining
capacity, the call succeeds, `length` grows by exactly `8 × byteCount`, and
the appended bits are exactly the MSB-first bits of the source bytes in
order — a description that does not depend on the starting alignment, so
the aligned bulk-copy branch and the unaligned byte-by-byte fallback (each
byte written as an 8-bit unsigned field) emit identical bit streams. The
proof covers both branches of `writeBuffer`. -/
theorem writeBuffer_path_independent (b : BitBuilder) (src : List Nat)
    (hz : ZerosFrom b) (hsrc : ∀ x ∈ src, x < 256)
    (hcap : b.length + 8 * src.length ≤ 8 * b.buffer.length) :
    ∃ b', writeBuffer b src = .ok b' ∧ b'.length = b.length + 8 * src.length ∧
      (∀ i j, i < src.length → j < 8 →
        getBit b' (b.length + 8 * i + j) = (src.getD i 0).testBit (7 - j)) ∧
      (∀ p, p < b.length → getBit b' p = getBit b p) := by
  obtain ⟨b', e, _, hlen, hbits, hoth, _⟩ := writeBuffer_ok b src hz hsrc hcap
  exact ⟨b', e, hlen, hbits, hoth⟩

theorem zerosFrom_bit0 : ZerosFrom ⟨[128, 0], 1⟩ := by
  intro p hp
  have hp' : 1 ≤ p := hp
  show ((([128, 0] : List Nat)).getD (p / 8) 0).testBit (7 - p % 8) = false
  rcases Nat.lt_or_ge p 8 with h8 | h8
  · have hdiv : p / 8 = 0 := by omega
    rw [hdiv, show (([128, 0] : List Nat)).getD 0 0 = 2 ^ 7 from rfl,
      Nat.testBit_two_pow]
    simp only [decide_eq_false_iff_not]
    omega
  · rcases Nat.lt_or_ge p 16 with h16 | h16
    · have hdiv : p / 8 = 1 := by omega
      rw [hdiv]
      exact Nat.zero_testBit _
    · have hdiv : 2 ≤ p / 8 := by omega
      have : (([128, 0] : List Nat)).getD (p / 8) 0 = 0 := by
        simp only [List.getD_eq_getElem?_getD]
        rw [List.getElem?_eq_none (by simpa using hdiv)]
        rfl
      rw [this]
      exact Nat.zero_testBit _

/-- Witness for claim C9 at a concrete unaligned input: appending the byte
`255` to a builder holding one bit takes the fallback path and appends the
eight set bits at positions 1 through 8. -/
theorem writeBuffer_path_independent_witness :
    ∃ b', writeBuffer ⟨[128, 0], 1⟩ [255] = .ok b' ∧ b'.length = 1 + 8 * 1 ∧
      (∀ i j, i < 1 → j < 8 →
        getBit b' (1 + 8 * i + j) = ((([255] : List Nat)).getD i 0).testBit (7 - j)) ∧
      (∀ p, p < 1 → getBit b' p = getBit ⟨[128, 0], 1⟩ p) := by
  have h := writeBuffer_path_independent ⟨[128, 0], 1⟩ [255] zerosFrom_bit0
    (by decide) (by decide)
  simpa using h

/-! ### Correctness of the address encoder -/

theorem readIntTC_eq (B : BitBuilder) (start w : Nat) (v : Int) (_hw : 2 ≤ w)
    (hlo : -(2 ^ (w - 1) : Int) ≤ v) (hhi : v < 2 ^ (w - 1))
    (hsign : getBit B start = decide (v < 0))
    (hbits : ∀ i, i < w - 1 → getBit B (start + 1 + i)
      = ((if v < 0 then (2 ^ (w - 1) : Int) + v else v).toNat).testBit (w - 1 - 1 - i)) :
    readIntTC B start w = v := by
  have hmag0 : (0 : Int) ≤ (if v < 0 then (2 ^ (w - 1) : Int) + v else v) := by
    by_cases hvneg : v < 0
    · rw [if_pos hvneg]; linarith
    · rw [if_neg hvneg]; exact Int.not_lt.mp hvneg
  have hmag2 : (if v < 0 then (2 ^ (w - 1) : Int) + v else v) < (2 ^ (w - 1) : Int) := by
    by_cases hvneg : v < 0
    · rw [if_pos hvneg]; linarith
    · rw [if_neg hvneg]; exact hhi
  have hmagN : ((if v < 0 then (2 ^ (w - 1) : Int) + v else v).toNat) < 2 ^ (w - 1) := by
    have hc : (((if v < 0 then (2 ^ (w - 1) : Int) + v else v).toNat : Int))
        < ((2 ^ (w - 1) : Nat) : Int) := by
      rw [Int.toNat_of_nonneg hmag0]
      push_cast
      exact hmag2
    exact_mod_cast hc
  have hread : readUint B (start + 1) (w - 1)
      = ((if v < 0 then (2 ^ (w - 1) : Int) + v else v).toNat) :=
    readUint_eq B (w - 1) (start + 1) _ hmagN hbits
  have hreadI : (readUint B (start + 1) (w - 1) : Int)
      = (if v < 0 then (2 ^ (w - 1) : Int) + v else v) := by
    rw [hread, Int.toNat_of_nonneg hmag0]
  unfold readIntTC
  rw [hsign, hreadI]
  simp only [decide_eq_true_eq]
  by_cases hvneg : v < 0
  · rw [if_pos hvneg, if_pos hvneg]
    ring
  · rw [if_neg hvneg, if_neg hvneg]

/-- Claim C6. `writeAddress` on an absent address appends exactly the two
zero tag bits and nothing else; on an internal address it appends the 2-bit
tag `10`, a zero anycast bit, the workchain as an 8-bit two's-complement
field, and then the raw hash bytes — `2 + 1 + 8 + 8·hashBytes` bits in
total, which is 267 for a 32-byte hash; and on an input that is neither
absent, internal nor external it fails with the invalid-address error. -/
theorem writeAddress_encoding (b : BitBuilder) (a : Address)
    (hz : ZerosFrom b)
    (hwc1 : -128 ≤ a.workChain) (hwc2 : a.workChain < 128)
    (hhash : ∀ x ∈ a.hash, x < 256)
    (hcap : b.length + 11 + 8 * a.hash.length ≤ 8 * b.buffer.length) :
    (∃ b', writeAddress b .absent = .ok b' ∧ b'.length = b.length + 2 ∧
      getBit b' b.length = false ∧ getBit b' (b.length + 1) = false) ∧
    (∃ b', writeAddress b (.internal a) = .ok b' ∧
      b'.length = b.length + 11 + 8 * a.hash.length ∧
      getBit b' b.length = true ∧ getBit b' (b.length + 1) = false ∧
      getBit b' (b.length + 2) = false ∧
      readIntTC b' (b.length + 3) 8 = a.workChain ∧
      (∀ i j, i < a.hash.length → j < 8 →
        getBit b' (b.length + 11 + 8 * i + j) = (a.hash.getD i 0).testBit (7 - j))) ∧
    writeAddress b .invalid = .error (.invalidAddress, b) := by
  refine ⟨?_, ?_, rfl⟩
  · obtain ⟨b', e, _, hlen, hbits, _, _⟩ :=
      writeUint_ok b (.num 0) 2 hz (by omega)
        (by show (0 : Int) ≤ 0; omega) (by show (0 : Int) < 2 ^ 2; norm_num)
        (by omega)
    have hb0 : getBit b' b.length = false := by
      have h := hbits 0 (by omega)
      rw [Nat.add_zero] at h
      rw [h]
      decide
    have hb1 : getBit b' (b.length + 1) = false := by
      have h := hbits 1 (by omega)
      rw [h]
      decide
    exact ⟨b', e, hlen, hb0, hb1⟩
  · obtain ⟨b1, e1, hbuf1, hlen1, hbits1, hoth1, hz1⟩ :=
      writeUint_ok b (.num 2) 2 hz (by omega)
        (by show (0 : Int) ≤ 2; omega) (by show (2 : Int) < 2 ^ 2; norm_num)
        (by omega)
    obtain ⟨b2, e2, hbuf2, hlen2, hbits2, hoth2, hz2⟩ :=
      writeUint_ok b1 (.num 0) 1 hz1 (by omega)
        (by show (0 : Int) ≤ 0; omega) (by show (0 : Int) < 2 ^ 1; norm_num)
        (by rw [hlen1, hbuf1]; omega)
    obtain ⟨b3, e3, hbuf3, hlen3, hsign3, hbits3, hoth3, hz3⟩ :=
      writeInt_ok b2 (.num a.workChain) 8 hz2 (by omega)
        (by show -(2 ^ (8 - 1) : Int) ≤ a.workChain; norm_num; linarith)
        (by show (a.workChain : Int) < 2 ^ (8 - 1); norm_num; linarith)
        (by rw [hlen2, hbuf2, hlen1, hbuf1]; omega)
    obtain ⟨b4, e4, hbuf4, hlen4, hbits4, hoth4, hz4⟩ :=
      writeBuffer_ok b3 a.hash hz3 hhash
        (by rw [hlen3, hlen2, hlen1, hbuf3, hbuf2, hbuf1]; omega)
    have hl1 : b1.length = b.length + 2 := hlen1
    have hl2 : b2.length = b.length + 3 := by omega
    have hl3 : b3.length = b.length + 11 := by omega
    have hl4 : b4.length = b.length + 11 + 8 * a.hash.length := by omega
    refine ⟨b4, ?_, hl4, ?_, ?_, ?_, ?_, ?_⟩
    · show writeAddress b (.internal a) = .ok b4
      simp only [writeAddress, e1, e2, e3, e4]
    · rw [hoth4 _ (by omega), hoth3 _ (by omega), hoth2 _ (by omega)]
      have h := hbits1 0 (by omega)
      rw [Nat.add_zero] at h
      rw [h]
      decide
    · rw [hoth4 _ (by omega), hoth3 _ (by omega), hoth2 _ (by omega)]
      have h := hbits1 1 (by omega)
      rw [h]
      decide
    · rw [hoth4 _ (by omega), hoth3 _ (by omega)]
      have h := hbits2 0 (by omega)
      rw [Nat.add_zero, hl1] at h
      rw [h]
      decide
    · apply readIntTC_eq b4 (b.length + 3) 8 a.workChain (by omega)
        (by norm_num; linarith) (by norm_num; linarith)
      · rw [hoth4 _ (by omega)]
        have h := hsign3
        rw [hl2] at h
        exact h
      · intro i hi
        have hi' : i < 7 := by omega
        rw [hoth4 _ (by omega)]
        have h := hbits3 i (by omega)
        rw [hl2] at h
        exact h
    · intro i j hi hj
      have hpos : b.length + 11 + 8 * i + j = b3.length + 8 * i + j := by omega
      rw [hpos]
      exact hbits4 i j hi hj

/-- Witness for claim C6 at a concrete input: an internal address with
workchain 0 and a 32-byte zero hash written on a fresh 512-bit builder emits
exactly 267 bits with the documented layout. -/
theorem writeAddress_encoding_witness :
    ∃ b', writeAddress (mkBuilder 512) (.internal ⟨0, List.replicate 32 0⟩) = .ok b' ∧
      b'.length = 267 ∧ getBit b' 0 = true ∧ getBit b' 1 = false ∧ getBit b' 2 = false ∧
      readIntTC b' 3 8 = 0 ∧
      (∀ i j, i < 32 → j < 8 →
        getBit b' (11 + 8 * i + j) = ((List.replicate 32 (0 : Nat)).getD i 0).testBit (7 - j)) :=
  (writeAddress_encoding (mkBuilder 512) ⟨0, List.replicate 32 0⟩
    (zerosFrom_mkBuilder 512) (by decide) (by decide) (by decide) (by decide)).2.1

/-! ### Correctness of the variable-length unsigned encoder -/

theorem varUintSize_pos {v : Nat} (hv : 0 < v) : 1 ≤ varUintSize v := by
  unfold varUintSize
  have hlt := lt_two_pow_toBitsLE_length v
  rcases Nat.eq_zero_or_pos (toBitsLE v).length with h | h
  · rw [h] at hlt
    simp at hlt
    omega
  · omega

theorem lt_two_pow_varUintSize_mul (v : Nat) : v < 2 ^ (varUintSize v * 8) := by
  have h1 := lt_two_pow_toBitsLE_length v
  have h2 : (toBitsLE v).length ≤ varUintSize v * 8 := by
    unfold varUintSize
    omega
  exact lt_of_lt_of_le h1 (Nat.pow_le_pow_right (by omega) h2)

/-- Supporting encoding lemma for `writeVarUint` at `sizeBits ≥ 1`: a
negative value fails with the range error before any emission; zero appends
exactly a `sizeBits`-wide zero size field and nothing else; and a positive
value appends its minimal whole-byte count `k` as the `sizeBits`-wide size
field followed by the value as a `k·8`-bit unsigned field. -/
theorem writeVarUint_encoding (b : BitBuilder) (value : JSVal) (s : Nat)
    (hz : ZerosFrom b) (hs : 1 ≤ s) :
    (value.toInt < 0 → writeVarUint b value s = .error (.rangeError, b)) ∧
    (value.toInt = 0 → b.length + s ≤ 8 * b.buffer.length →
      ∃ b', writeVarUint b value s = .ok b' ∧ b'.length = b.length + s ∧
        (∀ i, i < s → getBit b' (b.length + i) = false) ∧
        readUint b' b.length s = 0) ∧
    (0 < value.toInt → varUintSize value.toInt.toNat < 2 ^ s →
      b.length + s + varUintSize value.toInt.toNat * 8 ≤ 8 * b.buffer.length →
      ∃ b', writeVarUint b value s = .ok b' ∧
        b'.length = b.length + s + varUintSize value.toInt.toNat * 8 ∧
        readUint b' b.length s = varUintSize value.toInt.toNat ∧
        readUint b' (b.length + s) (varUintSize value.toInt.toNat * 8)
          = value.toInt.toNat) := by
  refine ⟨?_, ?_, ?_⟩
  · intro hneg
    unfold writeVarUint
    rw [if_pos hneg]
  · intro h0 hcap
    have hn : ¬ (value.toInt < 0) := by omega
    obtain ⟨b', e, hbuf, hlen, hbits, hoth, hz'⟩ :=
      writeUint_ok b (.num 0) s hz hs (by show (0 : Int) ≤ 0; omega)
        (by show (0 : Int) < 2 ^ s; positivity) hcap
    have heq : writeVarUint b value s = writeUint b (.num 0) s := by
      unfold writeVarUint
      rw [if_neg hn, if_pos h0]
    refine ⟨b', heq.trans e, hlen, ?_, ?_⟩
    · intro i hi
      rw [hbits i hi]
      exact Nat.zero_testBit _
    · apply readUint_eq b' s b.length 0 (by positivity)
      intro i hi
      exact hbits i hi
  · intro hpos hk hcap
    have hn : ¬ (value.toInt < 0) := by omega
    have hnz : ¬ (value.toInt = 0) := by omega
    have hkpos : 1 ≤ varUintSize value.toInt.toNat := varUintSize_pos (by omega)
    obtain ⟨b1, e1, hbuf1, hlen1, hbits1, hoth1, hz1⟩ :=
      writeUint_ok b (.num ((varUintSize value.toInt.toNat : Nat) : Int)) s hz hs
        (Int.natCast_nonneg _)
        (by show ((varUintSize value.toInt.toNat : Nat) : Int) < 2 ^ s; exact_mod_cast hk)
        (by omega)
    have hv8 : value.toInt.toNat < 2 ^ (varUintSize value.toInt.toNat * 8) :=
      lt_two_pow_varUintSize_mul _
    obtain ⟨b2, e2, hbuf2, hlen2, hbits2, hoth2, hz2⟩ :=
      writeUint_ok b1 (.big value.toInt) (varUintSize value.toInt.toNat * 8) hz1
        (by omega) (by show (0 : Int) ≤ value.toInt; omega)
        (by show value.toInt < 2 ^ (varUintSize value.toInt.toNat * 8)
            have hc : ((value.toInt.toNat : Nat) : Int)
                < ((2 ^ (varUintSize value.toInt.toNat * 8) : Nat) : Int) := by
              exact_mod_cast hv8
            rw [Int.toNat_of_nonneg (by omega)] at hc
            push_cast at hc
            exact hc)
        (by rw [hlen1, hbuf1]; omega)
    have heq : writeVarUint b value s = .ok b2 := by
      unfold writeVarUint
      rw [if_neg hn, if_neg hnz]
      show (match writeUint b (.num ((varUintSize value.toInt.toNat : Nat) : Int)) s with
        | Except.error e => (Except.error e : WRes)
        | Except.ok b' => writeUint b' (.big value.toInt) (varUintSize value.toInt.toNat * 8))
          = .ok b2
      rw [e1]
      exact e2
    refine ⟨b2, heq, by omega, ?_, ?_⟩
    · apply readUint_eq b2 s b.length (varUintSize value.toInt.toNat) hk
      intro i hi
      rw [hoth2 _ (by omega), hbits1 i hi]
      simp [JSVal.toInt]
    · apply readUint_eq b2 (varUintSize value.toInt.toNat * 8) (b.length + s)
        value.toInt.toNat hv8
      intro i hi
      have hp : b.length + s + i = b1.length + i := by omega
      rw [hp]
      exact hbits2 i hi

/-! ### Failed calls and state preservation -/

theorem writeBit_err (b : BitBuilder) (v : Bool) (e : WriteError) (b' : BitBuilder)
    (h : writeBit b v = .error (e, b')) : e = .overflow ∧ b' = b := by
  unfold writeBit at h
  by_cases hc : b.length > b.buffer.length * 8
  · rw [if_pos hc] at h
    simp at h
    exact ⟨h.1.symm, h.2.symm⟩
  · rw [if_neg hc] at h
    simp at h

theorem writeBitsMSB_err (bl : List Bool) :
    ∀ rem b e b', writeBitsMSB bl rem b = .error (e, b') → e = .overflow := by
  intro rem
  induction rem with
  | zero =>
    intro b e b' h
    simp [writeBitsMSB] at h
  | succ rem ih =>
    intro b e b' h
    unfold writeBitsMSB at h
    cases hw : writeBit b (bl.getD rem false) with
    | error p =>
      obtain ⟨e0, b0⟩ := p
      rw [hw] at h
      simp at h
      rw [← h.1]
      exact (writeBit_err b _ e0 b0 hw).1
    | ok b1 =>
      rw [hw] at h
      exact ih b1 e b' h

theorem writeUint_err (b : BitBuilder) (value : JSVal) (w : Nat) (e : WriteError)
    (b' : BitBuilder) (h : writeUint b value w = .error (e, b')) (hne : e ≠ .overflow) :
    b' = b := by
  unfold writeUint at h
  by_cases h1 : w = 8 ∧ b.length % 8 = 0
  · rw [if_pos h1] at h
    by_cases h2 : value.toInt < 0 ∨ value.toInt > 255
    · rw [if_pos h2] at h
      simp at h
      exact h.2.symm
    · rw [if_neg h2] at h
      simp at h
  · rw [if_neg h1] at h
    by_cases h2 : w = 16 ∧ b.length % 8 = 0
    · rw [if_pos h2] at h
      by_cases h3 : value.toInt < 0 ∨ value.toInt > 65536
      · rw [if_pos h3] at h
        simp at h
        exact h.2.symm
      · rw [if_neg h3] at h
        simp at h
    · rw [if_neg h2] at h
      by_cases h3 : w = 0
      · rw [if_pos h3] at h
        by_cases h4 : ¬ value.eqBig 0
        · rw [if_pos h4] at h
          simp at h
          exact h.2.symm
        · rw [if_neg h4] at h
          simp at h
      · rw [if_neg h3] at h
        by_cases h4 : value.toInt < 0 ∨ value.toInt ≥ 2 ^ w
        · rw [if_pos h4] at h
          simp at h
          exact h.2.symm
        · rw [if_neg h4] at h
          exact absurd (writeBitsMSB_err _ w b e b' h) hne

theorem writeUint_err_overflow (b : BitBuilder) (value : JSVal) (w : Nat) (e : WriteError)
    (b' : BitBuilder) (hw : 1 ≤ w) (h0 : 0 ≤ value.toInt) (h2 : value.toInt < 2 ^ w)
    (h : writeUint b value w = .error (e, b')) : e = .overflow := by
  unfold writeUint at h
  by_cases h1 : w = 8 ∧ b.length % 8 = 0
  · obtain ⟨hw8, hal⟩ := h1
    subst hw8
    rw [if_pos ⟨rfl, hal⟩] at h
    have h256 : value.toInt < 256 := by have := h2; norm_num at this; exact this
    rw [if_neg (by push_neg; exact ⟨h0, by omega⟩)] at h
    simp at h
  · rw [if_neg h1] at h
    by_cases h2' : w = 16 ∧ b.length % 8 = 0
    · obtain ⟨hw16, hal⟩ := h2'
      subst hw16
      rw [if_pos ⟨rfl, hal⟩] at h
      have h65536 : value.toInt < 65536 := by have := h2; norm_num at this; exact this
      rw [if_neg (by push_neg; exact ⟨h0, by omega⟩)] at h
      simp at h
    · rw [if_neg h2'] at h
      rw [if_neg (by omega : ¬ w = 0)] at h
      rw [if_neg (by push_neg; exact ⟨h0, h2⟩)] at h
      exact writeBitsMSB_err _ w b e b' h

theorem writeInt_err (b : BitBuilder) (value : JSVal) (w : Nat) (e : WriteError)
    (b' : BitBuilder) (h : writeInt b value w = .error (e, b')) (hne : e ≠ .overflow) :
    b' = b := by
  simp only [writeInt] at h
  by_cases h1 : w = 0
  · rw [if_pos h1] at h
    by_cases h2 : ¬ value.eqBig 0
    · rw [if_pos h2] at h
      simp at h
      exact h.2.symm
    · rw [if_neg h2] at h
      simp at h
  · rw [if_neg h1] at h
    by_cases h2 : w = 1
    · rw [if_pos h2] at h
      by_cases h3 : ¬ value.eqBig (-1) ∧ ¬ value.eqBig 0
      · rw [if_pos h3] at h
        simp at h
        exact h.2.symm
      · rw [if_neg h3] at h
        exact absurd (writeBit_err b _ e b' h).1 hne
    · rw [if_neg h2] at h
      by_cases h3 : value.toInt < -(2 ^ (w - 1) : Int) ∨ value.toInt ≥ (2 ^ (w - 1) : Int)
      · rw [if_pos h3] at h
        simp at h
        exact h.2.symm
      · rw [if_neg h3] at h
        push_neg at h3
        obtain ⟨hlo, hhi⟩ := h3
        cases hw' : writeBit b (decide (value.toInt < 0)) with
        | error p =>
          obtain ⟨e0, b0⟩ := p
          rw [hw'] at h
          simp at h
          exact absurd (h.1 ▸ (writeBit_err b _ e0 b0 hw').1) hne
        | ok b1 =>
          rw [hw'] at h
          have hmag0 : (0 : Int)
              ≤ (if value.toInt < 0 then (2 ^ (w - 1) : Int) + value.toInt
                 else value.toInt) := by
            by_cases hvneg : value.toInt < 0
            · rw [if_pos hvneg]; linarith
            · rw [if_neg hvneg]; exact Int.not_lt.mp hvneg
          have hmag2 : (if value.toInt < 0 then (2 ^ (w - 1) : Int) + value.toInt
              else value.toInt) < (2 ^ (w - 1) : Int) := by
            by_cases hvneg : value.toInt < 0
            · rw [if_pos hvneg]; linarith
            · rw [if_neg hvneg]; exact hhi
          exact absurd
            (writeUint_err_overflow b1
              (.big (if value.toInt < 0 then (2 ^ (w - 1) : Int) + value.toInt
                     else value.toInt))
              (w - 1) e b' (by omega) hmag0 hmag2 h) hne

theorem writeInt_err_overflow (b : BitBuilder) (value : JSVal) (w : Nat) (e : WriteError)
    (b' : BitBuilder) (hw : 2 ≤ w)
    (hlo : -(2 ^ (w - 1) : Int) ≤ value.toInt) (hhi : value.toInt < 2 ^ (w - 1))
    (h : writeInt b value w = .error (e, b')) : e = .overflow := by
  simp only [writeInt] at h
  rw [if_neg (by omega : ¬ w = 0), if_neg (by omega : ¬ w = 1),
    if_neg (by push_neg; exact ⟨hlo, hhi⟩)] at h
  cases hw' : writeBit b (decide (value.toInt < 0)) with
  | error p =>
    obtain ⟨e0, b0⟩ := p
    rw [hw'] at h
    simp at h
    rw [← h.1]
    exact (writeBit_err b _ e0 b0 hw').1
  | ok b1 =>
    rw [hw'] at h
    have hmag0 : (0 : Int)
        ≤ (if value.toInt < 0 then (2 ^ (w - 1) : Int) + value.toInt else value.toInt) := by
      by_cases hvneg : value.toInt < 0
      · rw [if_pos hvneg]; linarith
      · rw [if_neg hvneg]; exact Int.not_lt.mp hvneg
    have hmag2 : (if value.toInt < 0 then (2 ^ (w - 1) : Int) + value.toInt
        else value.toInt) < (2 ^ (w - 1) : Int) := by
      by_cases hvneg : value.toInt < 0
      · rw [if_pos hvneg]; linarith
      · rw [if_neg hvneg]; exact hhi
    exact writeUint_err_overflow b1
      (.big (if value.toInt < 0 then (2 ^ (w - 1) : Int) + value.toInt else value.toInt))
      (w - 1) e b' (by omega) hmag0 hmag2 h

theorem int_lt_pow_of_toNat_lt {v : Int} {n : Nat} (h0 : 0 ≤ v)
    (h : v.toNat < 2 ^ n) : v < (2 : Int) ^ n := by
  have hc : ((v.toNat : Nat) : Int) < ((2 ^ n : Nat) : Int) := by exact_mod_cast h
  rw [Int.toNat_of_nonneg h0] at hc
  push_cast at hc
  exact hc

theorem writeVarUint_err (b : BitBuilder) (value : JSVal) (s : Nat) (e : WriteError)
    (b' : BitBuilder) (h : writeVarUint b value s = .error (e, b')) (hne : e ≠ .overflow) :
    b' = b := by
  simp only [writeVarUint] at h
  by_cases h1 : value.toInt < 0
  · rw [if_pos h1] at h
    simp at h
    exact h.2.symm
  · rw [if_neg h1] at h
    by_cases h2 : value.toInt = 0
    · rw [if_pos h2] at h
      exact writeUint_err b _ s e b' h hne
    · rw [if_neg h2] at h
      cases hw : writeUint b (.num ((varUintSize value.toInt.toNat : Nat) : Int)) s with
      | error p =>
        obtain ⟨e0, b0⟩ := p
        rw [hw] at h
        simp at h
        rw [← h.2]
        exact writeUint_err b _ s e0 b0 hw (by rw [h.1]; exact hne)
      | ok b1 =>
        rw [hw] at h
        have hvI : value.toInt < (2 : Int) ^ (varUintSize value.toInt.toNat * 8) :=
          int_lt_pow_of_toNat_lt (by omega) (lt_two_pow_varUintSize_mul _)
        have hkpos : 1 ≤ varUintSize value.toInt.toNat := varUintSize_pos (by omega)
        exact absurd (writeUint_err_overflow b1 (.big value.toInt) _ e b'
          (by omega) (by show (0 : Int) ≤ value.toInt; omega) hvI h) hne

theorem writeVarInt_err (b : BitBuilder) (value : JSVal) (s : Nat) (e : WriteError)
    (b' : BitBuilder) (h : writeVarInt b value s = .error (e, b')) (hne : e ≠ .overflow) :
    b' = b := by
  simp only [writeVarInt] at h
  by_cases h2 : value.toInt = 0
  · rw [if_pos h2] at h
    exact writeUint_err b _ s e b' h hne
  · rw [if_neg h2] at h
    by_cases hvpos : value.toInt > 0
    · rw [if_pos hvpos] at h
      cases hw : writeUint b
          (.num ((1 + varUintSize value.toInt.toNat : Nat) : Int)) s with
      | error p =>
        obtain ⟨e0, b0⟩ := p
        rw [hw] at h
        simp at h
        rw [← h.2]
        exact writeUint_err b _ s e0 b0 hw (by rw [h.1]; exact hne)
      | ok b1 =>
        rw [hw] at h
        have hm8 : varUintSize value.toInt.toNat * 8
            ≤ (1 + varUintSize value.toInt.toNat) * 8 - 1 := by omega
        have h2p : (2 : Int) ^ (varUintSize value.toInt.toNat * 8)
            ≤ 2 ^ ((1 + varUintSize value.toInt.toNat) * 8 - 1) :=
          pow_le_pow_right₀ (by norm_num) hm8
        have hvI : value.toInt < (2 : Int) ^ (varUintSize value.toInt.toNat * 8) :=
          int_lt_pow_of_toNat_lt (by omega) (lt_two_pow_varUintSize_mul _)
        have hpow0 : (0 : Int) ≤ 2 ^ ((1 + varUintSize value.toInt.toNat) * 8 - 1) := by
          positivity
        exact absurd (writeInt_err_overflow b1 (.big value.toInt)
          ((1 + varUintSize value.toInt.toNat) * 8) e b' (by omega)
          (by show -(2 ^ ((1 + varUintSize value.toInt.toNat) * 8 - 1) : Int) ≤ value.toInt
              linarith)
          (by show value.toInt < (2 ^ ((1 + varUintSize value.toInt.toNat) * 8 - 1) : Int)
              linarith) h) hne
    · rw [if_neg hvpos] at h
      cases hw : writeUint b
          (.num ((1 + varUintSize (-value.toInt).toNat : Nat) : Int)) s with
      | error p =>
        obtain ⟨e0, b0⟩ := p
        rw [hw] at h
        simp at h
        rw [← h.2]
        exact writeUint_err b _ s e0 b0 hw (by rw [h.1]; exact hne)
      | ok b1 =>
        rw [hw] at h
        have hm8 : varUintSize (-value.toInt).toNat * 8
            ≤ (1 + varUintSize (-value.toInt).toNat) * 8 - 1 := by omega
        have h2p : (2 : Int) ^ (varUintSize (-value.toInt).toNat * 8)
            ≤ 2 ^ ((1 + varUintSize (-value.toInt).toNat) * 8 - 1) :=
          pow_le_pow_right₀ (by norm_num) hm8
        have hvI : -value.toInt < (2 : Int) ^ (varUintSize (-value.toInt).toNat * 8) :=
          int_lt_pow_of_toNat_lt (by omega) (lt_two_pow_varUintSize_mul _)
        have hpow0 : (0 : Int) ≤ 2 ^ ((1 + varUintSize (-value.toInt).toNat) * 8 - 1) := by
          positivity
        exact absurd (writeInt_err_overflow b1 (.big value.toInt)
          ((1 + varUintSize (-value.toInt).toNat) * 8) e b' (by omega)
          (by show -(2 ^ ((1 + varUintSize (-value.toInt).toNat) * 8 - 1) : Int) ≤ value.toInt
              linarith)
          (by show value.toInt < (2 ^ ((1 + varUintSize (-value.toInt).toNat) * 8 - 1) : Int)
              linarith) h) hne

/-- Claim C2 (amended). For `writeUint`, `writeInt`, `writeVarUint`,
`writeVarInt` and `writeCoins`, every call that fails with an error other
than the overflow error leaves the builder exactly as it was before the
call: all argument validation precedes emission, so only a mid-emission
capacity overflow (or, for `writeAddress`, a component failing validation
after the tag bits — see the counterexample) can leave a partial field. -/
theorem failed_write_nonoverflow_preserves_state :
    ∀ (b : BitBuilder) (value : JSVal) (w : Nat) (e : WriteError) (b' : BitBuilder),
      e ≠ .overflow →
      (writeUint b value w = .error (e, b') → b' = b) ∧
      (writeInt b value w = .error (e, b') → b' = b) ∧
      (writeVarUint b value w = .error (e, b') → b' = b) ∧
      (writeVarInt b value w = .error (e, b') → b' = b) ∧
      (writeCoins b value = .error (e, b') → b' = b) :=
  fun b value w e b' hne =>
    ⟨fun h => writeUint_err b value w e b' h hne,
     fun h => writeInt_err b value w e b' h hne,
     fun h => writeVarUint_err b value w e b' h hne,
     fun h => writeVarInt_err b value w e b' h hne,
     fun h => writeVarUint_err b value 4 e b' h hne⟩

/-- Witness for the amended claim C2 at a concrete input: `writeUint(1, 0)`
fails with the value-mismatch error and leaves the fresh builder unchanged. -/
theorem failed_write_nonoverflow_preserves_state_witness : mkBuilder 8 = mkBuilder 8 :=
  (failed_write_nonoverflow_preserves_state (mkBuilder 8) (.num 1) 0 .valueMismatch
    (mkBuilder 8) (by decide)).1 (by decide)

/-! ### The zero-tail invariant is preserved by every successful write -/

theorem writeBit_ok_length (b : BitBuilder) (v : Bool) (b' : BitBuilder)
    (h : writeBit b v = .ok b') : b'.length = b.length + 1 := by
  unfold writeBit at h
  by_cases hc : b.length > b.buffer.length * 8
  · rw [if_pos hc] at h
    simp at h
  · rw [if_neg hc] at h
    simp at h
    rw [← h]

theorem writeBit_ok_zeros (b : BitBuilder) (v : Bool) (b' : BitBuilder)
    (hz : ZerosFrom b) (h : writeBit b v = .ok b') : ZerosFrom b' := by
  unfold writeBit at h
  by_cases hc : b.length > b.buffer.length * 8
  · rw [if_pos hc] at h
    simp at h
  · rw [if_neg hc] at h
    simp at h
    subst h
    cases v with
    | false =>
      intro p hp
      exact hz p (by exact Nat.le_of_succ_le hp)
    | true =>
      intro p hp
      have hp' : b.length + 1 ≤ p := hp
      show ((b.buffer.set (b.length / 8) _).getD (p / 8) 0).testBit (7 - p % 8) = false
      by_cases hin : b.length / 8 < b.buffer.length
      · by_cases hpb : p / 8 = b.length / 8
        · have hpm : b.length % 8 < p % 8 := by omega
          have hj : 7 - p % 8 < 8 := by omega
          have hsh : Nat.testBit (1 <<< (7 - b.length % 8)) (7 - p % 8) = false := by
            rw [Nat.testBit_shiftLeft]
            simp [Nat.not_le.mpr (show 7 - p % 8 < 7 - b.length % 8 by omega)]
          rw [hpb, getD_set_self hin,
            show (256 : Nat) = 2 ^ 8 from rfl, Nat.testBit_mod_two_pow, Nat.testBit_or, hsh]
          have hzp : getBit b p = false := hz p (by omega)
          have : getBit b p = (b.buffer.getD (b.length / 8) 0).testBit (7 - p % 8) := by
            unfold getBit
            rw [hpb]
          rw [this] at hzp
          rw [List.getD_eq_getElem?_getD] at hzp
          rw [hzp]
          simp [hj]
        · rw [getD_set_ne (fun hh => hpb hh.symm)]
          exact hz p (by omega)
      · rw [List.set_eq_of_length_le (by omega)]
        exact hz p (by omega)

theorem writeBitsMSB_ok_zeros (bl : List Bool) :
    ∀ rem b b', ZerosFrom b → writeBitsMSB bl rem b = .ok b' →
      ZerosFrom b' ∧ b.length ≤ b'.length := by
  intro rem
  induction rem with
  | zero =>
    intro b b' hz h
    simp [writeBitsMSB] at h
    subst h
    exact ⟨hz, le_rfl⟩
  | succ rem ih =>
    intro b b' hz h
    unfold writeBitsMSB at h
    cases hw : writeBit b (bl.getD rem false) with
    | error p =>
      rw [hw] at h
      simp at h
    | ok b1 =>
      rw [hw] at h
      have hz1 := writeBit_ok_zeros b _ b1 hz hw
      have hl1 := writeBit_ok_length b _ b1 hw
      obtain ⟨hz', hl'⟩ := ih b1 b' hz1 h
      exact ⟨hz', by omega⟩

theorem writeBitList_ok_zeros (l : List Bool) :
    ∀ b b', ZerosFrom b → writeBitList b l = .ok b' →
      ZerosFrom b' ∧ b.length ≤ b'.length := by
  induction l with
  | nil =>
    intro b b' hz h
    simp [writeBitList] at h
    subst h
    exact ⟨hz, le_rfl⟩
  | cons x xs ih =>
    intro b b' hz h
    unfold writeBitList at h
    cases hw : writeBit b x with
    | error p =>
      rw [hw] at h
      simp at h
    | ok b1 =>
      rw [hw] at h
      have hz1 := writeBit_ok_zeros b _ b1 hz hw
      have hl1 := writeBit_ok_length b _ b1 hw
      obtain ⟨hz', hl'⟩ := ih b1 b' hz1 h
      exact ⟨hz', by omega⟩

theorem writeUint_ok_zeros (b : BitBuilder) (value : JSVal) (w : Nat) (b' : BitBuilder)
    (hz : ZerosFrom b) (h : writeUint b value w = .ok b') :
    ZerosFrom b' ∧ b.length ≤ b'.length := by
  unfold writeUint at h
  by_cases h1 : w = 8 ∧ b.length % 8 = 0
  · rw [if_pos h1] at h
    by_cases h2 : value.toInt < 0 ∨ value.toInt > 255
    · rw [if_pos h2] at h
      simp at h
    · rw [if_neg h2] at h
      simp at h
      subst h
      refine ⟨?_, by show b.length ≤ b.length + 8; omega⟩
      intro p hp
      have hp' : b.length + 8 ≤ p := hp
      show ((b.buffer.set (b.length / 8) _).getD (p / 8) 0).testBit (7 - p % 8) = false
      rw [getD_set_ne (by omega)]
      exact hz p (by omega)
  · rw [if_neg h1] at h
    by_cases h2 : w = 16 ∧ b.length % 8 = 0
    · rw [if_pos h2] at h
      by_cases h3 : value.toInt < 0 ∨ value.toInt > 65536
      · rw [if_pos h3] at h
        simp at h
      · rw [if_neg h3] at h
        simp at h
        subst h
        refine ⟨?_, by show b.length ≤ b.length + 16; omega⟩
        intro p hp
        have hp' : b.length + 16 ≤ p := hp
        show (((b.buffer.set _ _).set (b.length / 8 + 1) _).getD (p / 8) 0).testBit
            (7 - p % 8) = false
        rw [getD_set_ne (by omega), getD_set_ne (by omega)]
        exact hz p (by omega)
    · rw [if_neg h2] at h
      by_cases h3 : w = 0
      · rw [if_pos h3] at h
        by_cases h4 : ¬ value.eqBig 0
        · rw [if_pos h4] at h
          simp at h
        · rw [if_neg h4] at h
          simp at h
          subst h
          exact ⟨hz, le_rfl⟩
      · rw [if_neg h3] at h
        by_cases h4 : value.toInt < 0 ∨ value.toInt ≥ 2 ^ w
        · rw [if_pos h4] at h
          simp at h
        · rw [if_neg h4] at h
          exact writeBitsMSB_ok_zeros _ w b b' hz h

theorem writeInt_ok_zeros (b : BitBuilder) (value : JSVal) (w : Nat) (b' : BitBuilder)
    (hz : ZerosFrom b) (h : writeInt b value w = .ok b') :
    ZerosFrom b' ∧ b.length ≤ b'.length := by
  simp only [writeInt] at h
  by_cases h1 : w = 0
  · rw [if_pos h1] at h
    by_cases h2 : ¬ value.eqBig 0
    · rw [if_pos h2] at h
      simp at h
    · rw [if_neg h2] at h
      simp at h
      subst h
      exact ⟨hz, le_rfl⟩
  · rw [if_neg h1] at h
    by_cases h2 : w = 1
    · rw [if_pos h2] at h
      by_cases h3 : ¬ value.eqBig (-1) ∧ ¬ value.eqBig 0
      · rw [if_pos h3] at h
        simp at h
      · rw [if_neg h3] at h
        have hzz := writeBit_ok_zeros b _ b' hz h
        have hl := writeBit_ok_length b _ b' h
        exact ⟨hzz, by omega⟩
    · rw [if_neg h2] at h
      by_cases h3 : value.toInt < -(2 ^ (w - 1) : Int) ∨ value.toInt ≥ (2 ^ (w - 1) : Int)
      · rw [if_pos h3] at h
        simp at h
      · rw [if_neg h3] at h
        cases hw' : writeBit b (decide (value.toInt < 0)) with
        | error p =>
          rw [hw'] at h
          simp at h
        | ok b1 =>
          rw [hw'] at h
          have hz1 := writeBit_ok_zeros b _ b1 hz hw'
          have hl1 := writeBit_ok_length b _ b1 hw'
          obtain ⟨hz', hl'⟩ := writeUint_ok_zeros b1 _ _ b' hz1 h
          exact ⟨hz', by omega⟩

theorem writeBufferLoop_ok_zeros (src : List Nat) :
    ∀ b b', ZerosFrom b → writeBufferLoop b src = .ok b' →
      ZerosFrom b' ∧ b.length ≤ b'.length := by
  induction src with
  | nil =>
    intro b b' hz h
    simp [writeBufferLoop] at h
    subst h
    exact ⟨hz, le_rfl⟩
  | cons x xs ih =>
    intro b b' hz h
    unfold writeBufferLoop at h
    cases hw : writeUint b (.num (x : Int)) 8 with
    | error p =>
      rw [hw] at h
      simp at h
    | ok b1 =>
      rw [hw] at h
      obtain ⟨hz1, hl1⟩ := writeUint_ok_zeros b _ _ b1 hz hw
      obtain ⟨hz', hl'⟩ := ih b1 b' hz1 h
      exact ⟨hz', by omega⟩

theorem writeBuffer_ok_zeros (b : BitBuilder) (src : List Nat) (b' : BitBuilder)
    (hz : ZerosFrom b) (h : writeBuffer b src = .ok b') :
    ZerosFrom b' ∧ b.length ≤ b'.length := by
  unfold writeBuffer at h
  by_cases hal : b.length % 8 = 0
  · rw [if_pos hal] at h
    by_cases hov : b.length + src.length * 8 > b.buffer.length * 8
    · rw [if_pos hov] at h
      simp at h
    · rw [if_neg hov] at h
      simp at h
      subst h
      refine ⟨?_, by show b.length ≤ b.length + src.length * 8; omega⟩
      intro p hp
      have hp' : b.length + src.length * 8 ≤ p := hp
      show ((copyInto b.buffer (b.length / 8) src).getD (p / 8) 0).testBit (7 - p % 8) = false
      rw [copyInto_getD_ge src _ _ _ (by omega)]
      exact hz p (by omega)
  · rw [if_neg hal] at h
    exact writeBufferLoop_ok_zeros src b b' hz h

theorem writeVarUint_ok_zeros (b : BitBuilder) (value : JSVal) (s : Nat) (b' : BitBuilder)
    (hz : ZerosFrom b) (h : writeVarUint b value s = .ok b') :
    ZerosFrom b' ∧ b.length ≤ b'.length := by
  simp only [writeVarUint] at h
  by_cases h1 : value.toInt < 0
  · rw [if_pos h1] at h
    simp at h
  · rw [if_neg h1] at h
    by_cases h2 : value.toInt = 0
    · rw [if_pos h2] at h
      exact writeUint_ok_zeros b _ s b' hz h
    · rw [if_neg h2] at h
      cases hw : writeUint b (.num ((varUintSize value.toInt.toNat : Nat) : Int)) s with
      | error p =>
        rw [hw] at h
        simp at h
      | ok b1 =>
        rw [hw] at h
        obtain ⟨hz1, hl1⟩ := writeUint_ok_zeros b _ s b1 hz hw
        obtain ⟨hz', hl'⟩ := writeUint_ok_zeros b1 _ _ b' hz1 h
        exact ⟨hz', by omega⟩

theorem writeVarInt_ok_zeros (b : BitBuilder) (value : JSVal) (s : Nat) (b' : BitBuilder)
    (hz : ZerosFrom b) (h : writeVarInt b value s = .ok b') :
    ZerosFrom b' ∧ b.length ≤ b'.length := by
  simp only [writeVarInt] at h
  by_cases h2 : value.toInt = 0
  · rw [if_pos h2] at h
    exact writeUint_ok_zeros b _ s b' hz h
  · rw [if_neg h2] at h
    cases hw : writeUint b
        (.num ((1 + varUintSize (if value.toInt > 0 then value.toInt
          else -value.toInt).toNat : Nat) : Int)) s with
    | error p =>
      rw [hw] at h
      simp at h
    | ok b1 =>
      rw [hw] at h
      obtain ⟨hz1, hl1⟩ := writeUint_ok_zeros b _ s b1 hz hw
      obtain ⟨hz', hl'⟩ := writeInt_ok_zeros b1 _ _ b' hz1 h
      exact ⟨hz', by omega⟩

theorem writeAddress_ok_zeros (b : BitBuilder) (a : MaybeAddress) (b' : BitBuilder)
    (hz : ZerosFrom b) (h : writeAddress b a = .ok b') :
    ZerosFrom b' ∧ b.length ≤ b'.length := by
  cases a with
  | absent => exact writeUint_ok_zeros b _ 2 b' hz h
  | invalid => simp [writeAddress] at h
  | internal a =>
    simp only [writeAddress] at h
    cases h1 : writeUint b (.num 2) 2 with
    | error p => simp only [h1] at h; exact Except.noConfusion h
    | ok b1 =>
      simp only [h1] at h
      obtain ⟨hz1, hl1⟩ := writeUint_ok_zeros b _ 2 b1 hz h1
      cases h2 : writeUint b1 (.num 0) 1 with
      | error p => simp only [h2] at h; exact Except.noConfusion h
      | ok b2 =>
        simp only [h2] at h
        obtain ⟨hz2, hl2⟩ := writeUint_ok_zeros b1 _ 1 b2 hz1 h2
        cases h3 : writeInt b2 (.num a.workChain) 8 with
        | error p => simp only [h3] at h; exact Except.noConfusion h
        | ok b3 =>
          simp only [h3] at h
          obtain ⟨hz3, hl3⟩ := writeInt_ok_zeros b2 _ 8 b3 hz2 h3
          obtain ⟨hz4, hl4⟩ := writeBuffer_ok_zeros b3 a.hash b' hz3 h
          exact ⟨hz4, by omega⟩
  | external ea =>
    simp only [writeAddress] at h
    cases h1 : writeUint b (.num 1) 2 with
    | error p => simp only [h1] at h; exact Except.noConfusion h
    | ok b1 =>
      simp only [h1] at h
      obtain ⟨hz1, hl1⟩ := writeUint_ok_zeros b _ 2 b1 hz h1
      cases h2 : writeUint b1 (.num (ea.bits : Int)) 9 with
      | error p => simp only [h2] at h; exact Except.noConfusion h
      | ok b2 =>
        simp only [h2] at h
        obtain ⟨hz2, hl2⟩ := writeUint_ok_zeros b1 _ 9 b2 hz1 h2
        obtain ⟨hz3, hl3⟩ := writeUint_ok_zeros b2 _ ea.bits b' hz2 h
        exact ⟨hz3, by omega⟩

/-! ### Length is monotone across every call, successful or failing -/

theorem writeBit_mono (b : BitBuilder) (v : Bool) :
    b.length ≤ (after (writeBit b v)).length := by
  simp only [writeBit]
  by_cases hc : b.length > b.buffer.length * 8
  · rw [if_pos hc]
    exact le_rfl
  · rw [if_neg hc]
    exact Nat.le_succ _

theorem writeBitsMSB_mono (bl : List Bool) :
    ∀ rem b, b.length ≤ (after (writeBitsMSB bl rem b)).length := by
  intro rem
  induction rem with
  | zero => intro b; exact le_rfl
  | succ rem ih =>
    intro b
    show b.length ≤ (after (match writeBit b (bl.getD rem false) with
      | Except.error e => (Except.error e : WRes)
      | Except.ok b' => writeBitsMSB bl rem b')).length
    cases hw : writeBit b (bl.getD rem false) with
    | error p =>
      obtain ⟨e0, b0⟩ := p
      have hb := (writeBit_err b _ e0 b0 hw).2
      subst hb
      exact le_rfl
    | ok b1 =>
      have hl := writeBit_ok_length b _ b1 hw
      exact le_trans (by omega) (ih b1)

theorem writeBitList_mono (l : List Bool) :
    ∀ b, b.length ≤ (after (writeBitList b l)).length := by
  induction l with
  | nil => intro b; exact le_rfl
  | cons x xs ih =>
    intro b
    show b.length ≤ (after (match writeBit b x with
      | Except.error e => (Except.error e : WRes)
      | Except.ok b' => writeBitList b' xs)).length
    cases hw : writeBit b x with
    | error p =>
      obtain ⟨e0, b0⟩ := p
      have hb := (writeBit_err b _ e0 b0 hw).2
      subst hb
      exact le_rfl
    | ok b1 =>
      have hl := writeBit_ok_length b _ b1 hw
      exact le_trans (by omega) (ih b1)

theorem writeUint_mono (b : BitBuilder) (value : JSVal) (w : Nat) :
    b.length ≤ (after (writeUint b value w)).length := by
  unfold writeUint
  by_cases h1 : w = 8 ∧ b.length % 8 = 0
  · rw [if_pos h1]
    by_cases h2 : value.toInt < 0 ∨ value.toInt > 255
    · rw [if_pos h2]; exact le_rfl
    · rw [if_neg h2]; exact Nat.le_add_right _ _
  · rw [if_neg h1]
    by_cases h2 : w = 16 ∧ b.length % 8 = 0
    · rw [if_pos h2]
      by_cases h3 : value.toInt < 0 ∨ value.toInt > 65536
      · rw [if_pos h3]; exact le_rfl
      · rw [if_neg h3]; exact Nat.le_add_right _ _
    · rw [if_neg h2]
      by_cases h3 : w = 0
      · rw [if_pos h3]
        by_cases h4 : ¬ value.eqBig 0
        · rw [if_pos h4]; exact le_rfl
        · rw [if_neg h4]; exact le_rfl
      · rw [if_neg h3]
        by_cases h4 : value.toInt < 0 ∨ value.toInt ≥ 2 ^ w
        · rw [if_pos h4]; exact le_rfl
        · rw [if_neg h4]; exact writeBitsMSB_mono _ w b

theorem writeInt_mono (b : BitBuilder) (value : JSVal) (w : Nat) :
    b.length ≤ (after (writeInt b value w)).length := by
  simp only [writeInt]
  by_cases h1 : w = 0
  · rw [if_pos h1]
    by_cases h2 : ¬ value.eqBig 0
    · rw [if_pos h2]; exact le_rfl
    · rw [if_neg h2]; exact le_rfl
  · rw [if_neg h1]
    by_cases h2 : w = 1
    · rw [if_pos h2]
      by_cases h3 : ¬ value.eqBig (-1) ∧ ¬ value.eqBig 0
      · rw [if_pos h3]; exact le_rfl
      · rw [if_neg h3]; exact writeBit_mono b _
    · rw [if_neg h2]
      by_cases h3 : value.toInt < -(2 ^ (w - 1) : Int) ∨ value.toInt ≥ (2 ^ (w - 1) : Int)
      · rw [if_pos h3]; exact le_rfl
      · rw [if_neg h3]
        cases hw : writeBit b (decide (value.toInt < 0)) with
        | error p =>
          obtain ⟨e0, b0⟩ := p
          have hb := (writeBit_err b _ e0 b0 hw).2
          subst hb
          exact le_rfl
        | ok b1 =>
          have hl := writeBit_ok_length b _ b1 hw
          exact le_trans (by omega) (writeUint_mono b1 _ _)

theorem writeVarUint_mono (b : BitBuilder) (value : JSVal) (s : Nat) :
    b.length ≤ (after (writeVarUint b value s)).length := by
  simp only [writeVarUint]
  by_cases h1 : value.toInt < 0
  · rw [if_pos h1]; exact le_rfl
  · rw [if_neg h1]
    by_cases h2 : value.toInt = 0
    · rw [if_pos h2]; exact writeUint_mono b _ s
    · rw [if_neg h2]
      cases hw : writeUint b (.num ((varUintSize value.toInt.toNat : Nat) : Int)) s with
      | error p =>
        have hm := writeUint_mono b (.num ((varUintSize value.toInt.toNat : Nat) : Int)) s
        rw [hw] at hm
        exact hm
      | ok b1 =>
        have hm := writeUint_mono b (.num ((varUintSize value.toInt.toNat : Nat) : Int)) s
        rw [hw] at hm
        exact le_trans hm (writeUint_mono b1 _ _)

theorem writeVarInt_mono (b : BitBuilder) (value : JSVal) (s : Nat) :
    b.length ≤ (after (writeVarInt b value s)).length := by
  simp only [writeVarInt]
  by_cases h2 : value.toInt = 0
  · rw [if_pos h2]; exact writeUint_mono b _ s
  · rw [if_neg h2]
    cases hw : writeUint b
        (.num ((1 + varUintSize (if value.toInt > 0 then value.toInt
          else -value.toInt).toNat : Nat) : Int)) s with
    | error p =>
      have hm := writeUint_mono b
        (.num ((1 + varUintSize (if value.toInt > 0 then value.toInt
          else -value.toInt).toNat : Nat) : Int)) s
      rw [hw] at hm
      exact hm
    | ok b1 =>
      have hm := writeUint_mono b
        (.num ((1 + varUintSize (if value.toInt > 0 then value.toInt
          else -value.toInt).toNat : Nat) : Int)) s
      rw [hw] at hm
      exact le_trans hm (writeInt_mono b1 _ _)

theorem writeBufferLoop_mono (src : List Nat) :
    ∀ b, b.length ≤ (after (writeBufferLoop b src)).length := by
  induction src with
  | nil => intro b; exact le_rfl
  | cons x xs ih =>
    intro b
    show b.length ≤ (after (match writeUint b (.num (x : Int)) 8 with
      | Except.error e => (Except.error e : WRes)
      | Except.ok b' => writeBufferLoop b' xs)).length
    cases hw : writeUint b (.num (x : Int)) 8 with
    | error p =>
      have hm := writeUint_mono b (.num (x : Int)) 8
      rw [hw] at hm
      exact hm
    | ok b1 =>
      have hm := writeUint_mono b (.num (x : Int)) 8
      rw [hw] at hm
      exact le_trans hm (ih b1)

theorem writeBuffer_mono (b : BitBuilder) (src : List Nat) :
    b.length ≤ (after (writeBuffer b src)).length := by
  unfold writeBuffer
  by_cases hal : b.length % 8 = 0
  · rw [if_pos hal]
    by_cases hov : b.length + src.length * 8 > b.buffer.length * 8
    · rw [if_pos hov]; exact le_rfl
    · rw [if_neg hov]; exact Nat.le_add_right _ _
  · rw [if_neg hal]
    exact writeBufferLoop_mono src b

theorem writeAddress_mono (b : BitBuilder) (a : MaybeAddress) :
    b.length ≤ (after (writeAddress b a)).length := by
  cases a with
  | absent => exact writeUint_mono b (.num 0) 2
  | invalid => exact le_rfl
  | internal a =>
    show b.length ≤ (after (match writeUint b (.num 2) 2 with
      | Except.error e => (Except.error e : WRes)
      | Except.ok b1 =>
        match writeUint b1 (.num 0) 1 with
        | Except.error e => (Except.error e : WRes)
        | Except.ok b2 =>
          match writeInt b2 (.num a.workChain) 8 with
          | Except.error e => (Except.error e : WRes)
          | Except.ok b3 => writeBuffer b3 a.hash)).length
    cases h1 : writeUint b (.num 2) 2 with
    | error p =>
      have hm := writeUint_mono b (.num 2) 2
      rw [h1] at hm
      exact hm
    | ok b1 =>
      have hm1 := writeUint_mono b (.num 2) 2
      rw [h1] at hm1
      show b.length ≤ (after (match writeUint b1 (.num 0) 1 with
        | Except.error e => (Except.error e : WRes)
        | Except.ok b2 =>
          match writeInt b2 (.num a.workChain) 8 with
          | Except.error e => (Except.error e : WRes)
          | Except.ok b3 => writeBuffer b3 a.hash)).length
      cases h2 : writeUint b1 (.num 0) 1 with
      | error p =>
        have hm := writeUint_mono b1 (.num 0) 1
        rw [h2] at hm
        exact le_trans hm1 hm
      | ok b2 =>
        have hm2 := writeUint_mono b1 (.num 0) 1
        rw [h2] at hm2
        show b.length ≤ (after (match writeInt b2 (.num a.workChain) 8 with
          | Except.error e => (Except.error e : WRes)
          | Except.ok b3 => writeBuffer b3 a.hash)).length
        cases h3 : writeInt b2 (.num a.workChain) 8 with
        | error p =>
          have hm := writeInt_mono b2 (.num a.workChain) 8
          rw [h3] at hm
          exact le_trans hm1 (le_trans hm2 hm)
        | ok b3 =>
          have hm3 := writeInt_mono b2 (.num a.workChain) 8
          rw [h3] at hm3
          exact le_trans hm1 (le_trans hm2 (le_trans hm3 (writeBuffer_mono b3 a.hash)))
  | external ea =>
    show b.length ≤ (after (match writeUint b (.num 1) 2 with
      | Except.error er => (Except.error er : WRes)
      | Except.ok b1 =>
        match writeUint b1 (.num (ea.bits : Int)) 9 with
        | Except.error er => (Except.error er : WRes)
        | Except.ok b2 => writeUint b2 (.big ea.value) ea.bits)).length
    cases h1 : writeUint b (.num 1) 2 with
    | error p =>
      have hm := writeUint_mono b (.num 1) 2
      rw [h1] at hm
      exact hm
    | ok b1 =>
      have hm1 := writeUint_mono b (.num 1) 2
      rw [h1] at hm1
      show b.length ≤ (after (match writeUint b1 (.num (ea.bits : Int)) 9 with
        | Except.error er => (Except.error er : WRes)
        | Except.ok b2 => writeUint b2 (.big ea.value) ea.bits)).length
      cases h2 : writeUint b1 (.num (ea.bits : Int)) 9 with
      | error p =>
        have hm := writeUint_mono b1 (.num (ea.bits : Int)) 9
        rw [h2] at hm
        exact le_trans hm1 hm
      | ok b2 =>
        have hm2 := writeUint_mono b1 (.num (ea.bits : Int)) 9
        rw [h2] at hm2
        exact le_trans hm1 (le_trans hm2 (writeUint_mono b2 (.big ea.value) ea.bits))

/-! ### The builder invariant over arbitrary operation sequences -/

/-- One write operation of the builder's public interface, with its
arguments. -/
inductive WriteOp where
  | bit (value : Bool)
  | bits (src : List Bool)
  | buf (src : List Nat)
  | uint (value : JSVal) (bits : Nat)
  | int (value : JSVal) (bits : Nat)
  | varUint (value : JSVal) (bits : Nat)
  | varInt (value : JSVal) (bits : Nat)
  | coins (amount : JSVal)
  | addr (address : MaybeAddress)

/-- Dispatch one operation on the builder. -/
def applyOp (b : BitBuilder) : WriteOp → WRes
  | .bit value => writeBit b value
  | .bits src => writeBits b src
  | .buf src => writeBuffer b src
  | .uint value bits => writeUint b value bits
  | .int value bits => writeInt b value bits
  | .varUint value bits => writeVarUint b value bits
  | .varInt value bits => writeVarInt b value bits
  | .coins amount => writeCoins b amount
  | .addr address => writeAddress b address

/-- Run a sequence of operations, stopping at the first error. -/
def runOps (b : BitBuilder) : List WriteOp → WRes
  | [] => .ok b
  | op :: ops =>
    match applyOp b op with
    | .error e => .error e
    | .ok b' => runOps b' ops

theorem applyOp_ok_zeros (b : BitBuilder) (op : WriteOp) (b' : BitBuilder)
    (hz : ZerosFrom b) (h : applyOp b op = .ok b') : ZerosFrom b' := by
  cases op with
  | bit value => exact writeBit_ok_zeros b value b' hz h
  | bits src => exact (writeBitList_ok_zeros src b b' hz h).1
  | buf src => exact (writeBuffer_ok_zeros b src b' hz h).1
  | uint value bits => exact (writeUint_ok_zeros b value bits b' hz h).1
  | int value bits => exact (writeInt_ok_zeros b value bits b' hz h).1
  | varUint value bits => exact (writeVarUint_ok_zeros b value bits b' hz h).1
  | varInt value bits => exact (writeVarInt_ok_zeros b value bits b' hz h).1
  | coins amount => exact (writeVarUint_ok_zeros b amount 4 b' hz h).1
  | addr address => exact (writeAddress_ok_zeros b address b' hz h).1

theorem applyOp_mono (b : BitBuilder) (op : WriteOp) :
    b.length ≤ (after (applyOp b op)).length := by
  cases op with
  | bit value => exact writeBit_mono b value
  | bits src => exact writeBitList_mono src b
  | buf src => exact writeBuffer_mono b src
  | uint value bits => exact writeUint_mono b value bits
  | int value bits => exact writeInt_mono b value bits
  | varUint value bits => exact writeVarUint_mono b value bits
  | varInt value bits => exact writeVarInt_mono b value bits
  | coins amount => exact writeVarUint_mono b amount 4
  | addr address => exact writeAddress_mono b address

theorem runOps_zeros (ops : List WriteOp) :
    ∀ b b', ZerosFrom b → runOps b ops = .ok b' → ZerosFrom b' := by
  induction ops with
  | nil =>
    intro b b' hz h
    simp [runOps] at h
    subst h
    exact hz
  | cons op ops ih =>
    intro b b' hz h
    unfold runOps at h
    cases hw : applyOp b op with
    | error p =>
      rw [hw] at h
      exact Except.noConfusion h
    | ok b1 =>
      rw [hw] at h
      exact ih b1 b' (applyOp_ok_zeros b op b1 hz hw) h

/-- Claim C10. Every builder reachable from construction by a sequence of
successful write operations keeps the invariant that every bit of the
backing storage at bit index at or beyond `length` is zero (storage starts
zero-initialised and bits are only ever set at the current write position);
and across every single operation — successful or failing — the builder's
`length` is non-decreasing. -/
theorem builder_zero_tail_invariant_and_monotone_length :
    (∀ (size : Nat) (ops : List WriteOp) (b' : BitBuilder),
      runOps (mkBuilder size) ops = .ok b' →
      ∀ p, b'.length ≤ p → getBit b' p = false)
    ∧ (∀ (b : BitBuilder) (op : WriteOp), b.length ≤ (after (applyOp b op)).length) :=
  ⟨fun size ops b' h => runOps_zeros ops (mkBuilder size) b' (zerosFrom_mkBuilder size) h,
   applyOp_mono⟩

/-- Witness for claim C10 at a concrete input: after successfully writing
the byte 5 on a fresh 16-bit builder, bit 9 (beyond `length = 8`) is zero. -/
theorem builder_zero_tail_invariant_and_monotone_length_witness :
    getBit ⟨[5, 0], 8⟩ 9 = false :=
  builder_zero_tail_invariant_and_monotone_length.1 16 [.uint (.big 5) 8] ⟨[5, 0], 8⟩
    (by decide) 9 (by decide)
